import Mathlib

/-!
# Lottie sprite importer

A shallow embedding of `ResourceImporterLottie::import`
(`resource_importer_lottie.cpp`, lines 90-197) and proofs about its frame
sampling loop, its pixel normalisation loop, its buffer sizes and its
failure paths.

Conventions of the embedding.

* Every definition of the operation takes the arithmetic `A : Arith` it runs in: how an
  exact result becomes a `double` or a `float`.  `ieee` is the arithmetic of the code,
  round to nearest, ties to even, with 53 and 24 bits and gradual underflow.
  `exactArith` performs no rounding and serves the statements made for exact
  arithmetic.  Values are rationals; an option or a value reported by the animation is
  rounded when it is read.
* A division by zero has no rational counterpart (IEEE gives an infinity or a NaN), and
  neither has a duration that overflows; the model gives no result there.
* `size_t` is a natural number taken modulo `2^64` where the source multiplies; `int`
  and `int32_t` are integers obtained by `toInt32`.
* A computation returns `none` when the loop has not finished within the given fuel,
  when the C++ behaviour is undefined (an out-of-range index, a `memcpy` with a
  negative count, a float to `size_t` conversion that does not fit), or when a value
  has no rational counterpart.
* The collaborators (document loader and rasteriser, scene saver) are parameters.  Every
  effect of `import` on them is recorded in the result.
-/

namespace Lottie

/-! ## Arithmetic -/

/-- The nearest integer, a tie going to the even neighbour. -/
def roundHalfEven (y : ℚ) : ℤ :=
  if y - ⌊y⌋ < 1 / 2 then ⌊y⌋
  else if 1 / 2 < y - ⌊y⌋ then ⌊y⌋ + 1
  else if ⌊y⌋ % 2 = 0 then ⌊y⌋ else ⌊y⌋ + 1

/-- The binary logarithm of a natural number, rounded down, by repeated halving. -/
def log2Fuel : ℕ → ℕ → ℕ
  | 0, _ => 0
  | fuel + 1, n => if n < 2 then 0 else log2Fuel fuel (n / 2) + 1

/-- The position of the leading bit of `n`. -/
def ilog2 (n : ℕ) : ℕ := log2Fuel n n

/-- The binary exponent of a non-zero rational: the `e` with `2^e ≤ |x| < 2^(e+1)`. -/
def binExp (x : ℚ) : ℤ :=
  let e0 : ℤ := (ilog2 x.num.natAbs : ℤ) - (ilog2 x.den : ℤ)
  if (2 : ℚ) ^ e0 ≤ |x| then e0 else e0 - 1

/-- Rounding to the nearest binary floating point value with `p` significant bits whose
last place is at least `2^emin`, ties to even.  The exponent is not bounded above. -/
def roundBinary (p : ℕ) (emin : ℤ) (x : ℚ) : ℚ :=
  let q : ℤ := max (binExp x - ((p : ℤ) - 1)) emin
  (roundHalfEven (x / (2 : ℚ) ^ q) : ℚ) * (2 : ℚ) ^ q

/-- The arithmetic the operation runs in: the rounding of an exact result to `double`
and to `float`, and the test that a rounded `double` is finite. -/
structure Arith where
  double : ℚ → ℚ
  float : ℚ → ℚ
  isFinite : ℚ → Bool

/-- Arithmetic taken exactly: nothing is rounded. -/
def exactArith : Arith := ⟨fun x => x, fun x => x, fun _ => true⟩

/-- The arithmetic of the code: IEEE 754 binary64 for `double` and binary32 for `float`,
round to nearest, ties to even.  A rounded value of magnitude `2^1024` or more stands for
an infinity. -/
def ieee : Arith :=
  ⟨roundBinary 53 (-1074), roundBinary 24 (-149), fun x => decide (|x| < 2 ^ 1024)⟩

/-- What the proofs use of a rounding to `double`: it keeps zero, keeps a value that is
already rounded, and keeps the order. -/
structure Arith.Sound (A : Arith) : Prop where
  double_zero : A.double 0 = 0
  double_idem : ∀ x, A.double (A.double x) = A.double x
  double_mono : ∀ x y, x ≤ y → A.double x ≤ A.double y

/-- A value on the binary grid of precision `p` and least exponent `emin`. -/
def Representable (p : ℕ) (emin : ℤ) (v : ℚ) : Prop :=
  ∃ n q : ℤ, |n| < 2 ^ p ∧ emin ≤ q ∧ v = (n : ℚ) * (2 : ℚ) ^ q

/-! ## Data model -/

/-- Status codes of the host engine that `import` can return. -/
inductive Error
  | OK
  | FAILED
  | other (code : ℕ)
deriving DecidableEq

/-- The `scale` option, a pair of floats. -/
structure Vector2 where
  width : ℚ
  height : ℚ

/-- A loaded `rlottie::Animation`: what `size`, `totalFrame`, `frameRate` report, and
the rasteriser as a function from the frame number, the surface width and height and a
pixel position in the surface to the packed 32-bit pixel written there.  The frame count
is a whole number in the library and a float in the spec; a rational covers both. -/
structure Animation where
  width : ℕ
  height : ℕ
  totalFrame : ℚ
  frameRate : ℚ
  renderSync : ℤ → ℕ → ℕ → ℕ → ℕ

/-- The entries of `p_options` that `import` reads; `start_frame` is the 64-bit integer
the option holds. -/
structure Options where
  threeD : Bool
  start_time : ℚ
  frame_rate : ℚ
  scale : Vector2
  animation_import : Bool
  animation_begin_playing : Bool
  start_frame : ℤ

/-- The arguments of `img->create((int)width, (int)height, false, FORMAT_RGBA8, pixels)`. -/
structure Image where
  width : ℤ
  height : ℤ
  data : List ℕ
deriving DecidableEq

/-- One pass through the body of the render loop: the value of `time` (kept for the
proofs, the source does not store it), the frame number handed to `renderSync`, and the
image handed to `add_frame` (`none` when building it leaves defined behaviour). -/
structure RenderedFrame where
  time : ℚ
  original_frame : ℤ
  image : Option Image

/-- The `SpriteFrames` resource: the speed of its single animation and the frames of that
animation in insertion order. -/
structure SpriteFrames where
  speed : ℚ
  frames : List Image

/-- The root node built after the loop, with the values the source sets on it. -/
inductive Node
  | Sprite3D (texture : Image) (shaded : Bool)
  | Sprite2D (texture : Image)
  | AnimatedSprite3D (playing shaded : Bool) (frame : ℤ) (sprite_frames : SpriteFrames)
  | AnimatedSprite2D (playing : Bool) (frame : ℤ) (sprite_frames : SpriteFrames)

/-- The collaborators: `load` stands for reading the file and
`rlottie::Animation::loadFromData` (`none` is the null handle), `save` for
`ResourceSaver::save`. -/
structure Host where
  load : String → Option Animation
  save : String → Node → Error

/-- What a call of `import` leaves behind: the returned status, the paths pushed to
`r_gen_files`, and the calls made to `ResourceSaver::save`. -/
structure ImportResult where
  err : Error
  gen_files : List String
  saved : List (String × Node)

/-! ## Conversions and host engine helpers -/

/-- Conversion of an unsigned value to `int` / `int32_t`: the low 32 bits, read as two's
complement. -/
def toInt32 (n : ℕ) : ℤ :=
  if n % 2 ^ 32 < 2 ^ 31 then ((n % 2 ^ 32 : ℕ) : ℤ) else ((n % 2 ^ 32 : ℕ) : ℤ) - 2 ^ 32

/-- The conversion of the 64-bit integer held by an option to `int32_t`: the low 32 bits,
read as two's complement. -/
def narrowInt32 (z : ℤ) : ℤ := toInt32 (z % 2 ^ 32).toNat

/-- Modelled from the spec: the `CLAMP` macro of the host engine is not in the source
file; the spec says the start time is clamped into `[0, length]`.  The comparisons are
those of the engine macro, `a < min ? min : (a > max ? max : a)`. -/
def CLAMP (m_a m_min m_max : ℚ) : ℚ :=
  if m_a < m_min then m_min else if m_a > m_max then m_max else m_a

/-- Modelled from the spec: `SpriteFrames::get_frame` of the host engine is not in the
source file; the spec says a static variant selects one frame of the track by index and
fails when that index is absent.  The track is the single animation `default` that every
frame was added to. -/
def get_frame (frames : SpriteFrames) (p_idx : ℤ) : Option Image :=
  if p_idx < 0 then none else frames.frames[p_idx.toNat]?

/-- The statement `width *= scale.width` on a `size_t`: the width is converted to
`float`, multiplied by the `float` scale, and the `float` product is truncated towards
zero.  The conversion back to `size_t` is undefined when the truncated value is negative
or does not fit 64 bits. -/
def scaleDim (A : Arith) (width : ℕ) (scale : ℚ) : Option ℕ :=
  let product : ℚ := A.float (A.float (width : ℚ) * A.float scale)
  let truncated : ℤ := if 0 ≤ product then ⌊product⌋ else ⌈product⌉
  if 0 ≤ truncated ∧ truncated < 2 ^ 64 then some truncated.toNat else none

/-! ## The loop body (lines 125-146) -/

/-- The four bytes of a packed 32-bit pixel in memory order (little endian). -/
def pixelBytes (v : ℕ) : List ℕ :=
  [v % 256, v / 256 % 256, v / 65536 % 256, v / 16777216 % 256]

/-- The bytes of a `Vector<uint32_t>` as `memcpy` reads them. -/
def bufferBytes : List ℕ → List ℕ
  | [] => []
  | v :: rest => pixelBytes v ++ bufferBytes rest

/-- The normalisation loop (lines 135-137):
`for (pixel_i = 0; pixel_i < pixels.size(); pixel_i += 4) SWAP(p[pixel_i + 2], p[pixel_i + 0])`,
started at `pixel_i`.  An access past the end of the array is undefined. -/
def swapLoop (pixels : List ℕ) (pixel_i : ℕ) : Option (List ℕ) :=
  if h : pixel_i < pixels.length then
    match pixels[pixel_i + 2]? with
    | none => none
    | some r =>
      swapLoop ((pixels.set (pixel_i + 2) pixels[pixel_i]).set pixel_i r) (pixel_i + 4)
  else some pixels
termination_by pixels.length - pixel_i
decreasing_by simp only [List.length_set]; omega

/-- The body of the render loop at the current `time`, up to the image passed to
`add_frame`.  The frame number is the floor of the `double` product
`time * lottie->frameRate()`, kept as an unbounded integer.

* `buffer.resize(width * height)` takes an `int`; a negative request is refused by the
  vector and leaves it empty.
* `renderSync` writes `width * height` pixels, which is undefined when the buffer is
  shorter.
* `buffer_byte_size` is the `int32_t` value of `buffer.size() * sizeof(uint32_t)`; a
  negative value is refused by `pixels.resize` and then passed to `memcpy`, undefined.
-/
def renderFrame (A : Arith) (lottie : Animation) (width height : ℕ) (time : ℚ) :
    RenderedFrame :=
  let requested : ℤ := toInt32 (width * height % 2 ^ 64)
  let buffer_size : ℕ := if requested < 0 then 0 else requested.toNat
  let original_frame : ℤ := ⌊A.double (time * A.double lottie.frameRate)⌋
  let image : Option Image :=
    if buffer_size < width * height then none
    else
      let buffer : List ℕ :=
        (List.range buffer_size).map
          (fun i => lottie.renderSync original_frame width height i % 2 ^ 32)
      let buffer_byte_size : ℤ := toInt32 (buffer.length * 4)
      if buffer_byte_size < 0 then none
      else
        match swapLoop ((bufferBytes buffer).take buffer_byte_size.toNat) 0 with
        | none => none
        | some pixels => some ⟨toInt32 width, toInt32 height, pixels⟩
  ⟨time, original_frame, image⟩

/-! ## The render loop (lines 124-155) -/

/-- The loop `while (true)` of `import`, with the frames appended so far.  Each unit of
fuel pays for one pass through the body; `none` means the fuel ran out. -/
def renderLoop (A : Arith) (lottie : Animation) (width height : ℕ)
    (increment length : ℚ) :
    ℕ → ℚ → Bool → List RenderedFrame → Option (List RenderedFrame)
  | 0, _, _, _ => none
  | fuel + 1, time, last, frames =>
    let frames := frames ++ [renderFrame A lottie width height time]
    if last then some frames
    else
      let time := A.double (time + increment)
      if time ≥ length then
        renderLoop A lottie width height increment length fuel length true frames
      else
        renderLoop A lottie width height increment length fuel time false frames

/-- Lines 116-155: the sampling parameters and the loop, for output dimensions
`width` and `height`.  The increment is the `double` quotient `1.0 / frame_rate`, the
length the `double` quotient of the frame count, converted to `double`, by the native
frame rate. -/
def renderTrack (A : Arith) (lottie : Animation) (width height : ℕ) (p_options : Options)
    (fuel : ℕ) : Option (List RenderedFrame) :=
  let frame_rate := A.double p_options.frame_rate
  let native := A.double lottie.frameRate
  if frame_rate = 0 ∨ native = 0 then none
  else
    let increment : ℚ := A.double (1 / frame_rate)
    let time := A.double p_options.start_time
    let length : ℚ := A.double (A.double lottie.totalFrame / native)
    if A.isFinite length = false then none
    else
      let time := CLAMP time 0 length
      renderLoop A lottie width height increment length fuel time false []

/-- The images of the rendered frames, when every one of them is defined. -/
def collectImages : List RenderedFrame → Option (List Image)
  | [] => some []
  | f :: rest =>
    match f.image, collectImages rest with
    | some img, some imgs => some (img :: imgs)
    | _, _ => none

/-! ## The whole operation -/

/-- The result of every `ERR_FAIL_COND_V(..., FAILED)`: the status alone. -/
def failed : ImportResult := ⟨Error.FAILED, [], []⟩

/-- Lines 191-196: pack the root, push the path, save, return what the saver returns. -/
def packAndSave (host : Host) (p_save_path : String) (root : Node) : ImportResult :=
  let save_path := p_save_path ++ ".scn"
  ⟨host.save save_path root, [save_path], [(save_path, root)]⟩

/-- Lines 157-196: the choice of the root node from the options and the save. -/
def buildAndSave (host : Host) (p_save_path : String) (p_options : Options)
    (frames : SpriteFrames) : ImportResult :=
  if p_options.threeD && !p_options.animation_import then
    match get_frame frames (narrowInt32 p_options.start_frame) with
    | none => failed
    | some tex => packAndSave host p_save_path (Node.Sprite3D tex true)
  else if !p_options.threeD && !p_options.animation_import then
    match get_frame frames (narrowInt32 p_options.start_frame) with
    | none => failed
    | some tex => packAndSave host p_save_path (Node.Sprite2D tex)
  else if p_options.threeD && p_options.animation_import then
    packAndSave host p_save_path
      (Node.AnimatedSprite3D p_options.animation_begin_playing true
        (narrowInt32 p_options.start_frame) frames)
  else
    packAndSave host p_save_path
      (Node.AnimatedSprite2D p_options.animation_begin_playing
        (narrowInt32 p_options.start_frame) frames)

/-- The function `ResourceImporterLottie::import`. -/
def importLottie (A : Arith) (host : Host) (fuel : ℕ)
    (p_source_file p_save_path : String) (p_options : Options) : Option ImportResult :=
  match host.load p_source_file with
  | none => some failed
  | some lottie =>
    if lottie.width = 0 then some failed
    else if lottie.height = 0 then some failed
    else
      match scaleDim A lottie.width p_options.scale.width,
        scaleDim A lottie.height p_options.scale.height with
      | some width, some height =>
        if width = 0 then some failed
        else if height = 0 then some failed
        else
          match renderTrack A lottie width height p_options fuel with
          | none => none
          | some rendered =>
            match collectImages rendered with
            | none => none
            | some textures =>
              some (buildAndSave host p_save_path p_options
                ⟨A.double p_options.frame_rate, textures⟩)
      | _, _ => none

/-! ## Closed forms used in the statements and proofs -/

/-- The pixel buffer after `renderSync`, when it holds `width * height` pixels. -/
def frameBuffer (A : Arith) (lottie : Animation) (width height : ℕ) (time : ℚ) : List ℕ :=
  (List.range (width * height)).map
    (fun i => lottie.renderSync ⌊A.double (time * A.double lottie.frameRate)⌋
      width height i % 2 ^ 32)

/-- The time after `k` additions of the increment, each rounded as the loop rounds it. -/
def stepTime (A : Arith) (increment start : ℚ) : ℕ → ℚ
  | 0 => start
  | k + 1 => A.double (stepTime A increment start k + increment)

/-- The frames of the loop in closed form: the start and its successive steps, then
`length`. -/
def closedFrames (A : Arith) (lottie : Animation) (width height : ℕ)
    (increment length start : ℚ) (count : ℕ) : List RenderedFrame :=
  (List.range count).map
      (fun k : ℕ => renderFrame A lottie width height (stepTime A increment start k))
    ++ [renderFrame A lottie width height length]

/-- In exact arithmetic, the number of passes of the loop that render a time reached by
stepping from the start, before the pass that renders `length`. -/
def stepCount (start length frame_rate : ℚ) : ℕ :=
  max 1 ⌈(length - start) * frame_rate⌉.toNat

/-- In exact arithmetic, the list of timestamps of the closed form. -/
def closedTimes (increment length start : ℚ) (count : ℕ) : List ℚ :=
  (List.range count).map (fun k : ℕ => start + (k : ℚ) * increment) ++ [length]

/-- The check that the times `rest` are the successive rounded steps from `t`, all below
`length`, and that the step after the last of them reaches `length`. -/
def stepsOk (A : Arith) (increment length : ℚ) : ℚ → List ℚ → Bool
  | t, [] => decide (length ≤ A.double (t + increment))
  | t, u :: rest =>
    decide (A.double (t + increment) = u ∧ u < length) && stepsOk A increment length u rest

/-- A one-pixel animation of one frame at one frame a second, whose rasteriser writes the
pixel `0x04030201`. -/
def onePixel : Animation := ⟨1, 1, 1, 1, fun _ _ _ _ => 67305985⟩

/-- Scenario A in the arithmetic of the code: the timestamps after the first, the running
`double` sums of the increment `1.0 / 15` that stay below 3. -/
def scenarioATimes : List ℚ :=
  [4803839602528529 / 72057594037927936, 4803839602528529 / 36028797018963968,
    3602879701896397 / 18014398509481984, 4803839602528529 / 18014398509481984,
    6004799503160661 / 18014398509481984, 7205759403792793 / 18014398509481984,
    8406719304424925 / 18014398509481984, 4803839602528529 / 9007199254740992,
    5404319552844595 / 9007199254740992, 6004799503160661 / 9007199254740992,
    6605279453476727 / 9007199254740992, 7205759403792793 / 9007199254740992,
    7806239354108859 / 9007199254740992, 8406719304424925 / 9007199254740992,
    9007199254740991 / 9007199254740992, 4803839602528529 / 4503599627370496,
    2552039788843281 / 2251799813685248, 5404319552844595 / 4503599627370496,
    1426139882000657 / 1125899906842624, 6004799503160661 / 4503599627370496,
    3152519739159347 / 2251799813685248, 6605279453476727 / 4503599627370496,
    863189928579345 / 562949953421312, 7205759403792793 / 4503599627370496,
    3752999689475413 / 2251799813685248, 7806239354108859 / 4503599627370496,
    2026619832316723 / 1125899906842624, 8406719304424925 / 4503599627370496,
    4353479639791479 / 2251799813685248, 9007199254740991 / 4503599627370496,
    581714951868689 / 281474976710656, 4803839602528529 / 2251799813685248,
    2476979795053773 / 1125899906842624, 5104079577686563 / 2251799813685248,
    1313549891316395 / 562949953421312, 5404319552844597 / 2251799813685248,
    2777219770211807 / 1125899906842624, 5704559528002631 / 2251799813685248,
    365917469723853 / 140737488355328, 6004799503160665 / 2251799813685248,
    3077459745369841 / 1125899906842624, 6305039478318699 / 2251799813685248,
    1613789866474429 / 562949953421312, 6605279453476733 / 2251799813685248]

/-- Nine frames at 10 frames a second sampled at 10 frames a second, in the arithmetic of
the code: the timestamps after the first that stay below the length 0.9. -/
def nineTimes : List ℚ :=
  [3602879701896397 / 36028797018963968, 3602879701896397 / 18014398509481984,
    1351079888211149 / 4503599627370496, 3602879701896397 / 9007199254740992, 1 / 2,
    5404319552844595 / 9007199254740992, 3152519739159347 / 4503599627370496,
    7205759403792793 / 9007199254740992, 2026619832316723 / 2251799813685248]

/-- The channel swap written pixel by pixel: the first and third byte of every group of
four change places.  Used to describe what `swapLoop` computes. -/
def swapBR : List ℕ → List ℕ
  | b :: g :: r :: a :: rest => r :: g :: b :: a :: swapBR rest
  | l => l

/-! ## Properties of the rounding -/

theorem log2Fuel_spec : ∀ (fuel n : ℕ), n ≤ fuel → n ≠ 0 →
    2 ^ log2Fuel fuel n ≤ n ∧ n < 2 ^ (log2Fuel fuel n + 1)
  | 0, n, h, hn => absurd (Nat.le_zero.mp h) hn
  | fuel + 1, n, h, hn => by
    unfold log2Fuel
    split_ifs with h2
    · constructor <;> simp <;> omega
    · have hle : n / 2 ≤ fuel := by omega
      have hne : n / 2 ≠ 0 := by omega
      obtain ⟨ih1, ih2⟩ := log2Fuel_spec fuel (n / 2) hle hne
      constructor
      · rw [pow_succ]; omega
      · rw [pow_succ]; omega

theorem ilog2_self_le {n : ℕ} (hn : n ≠ 0) : 2 ^ ilog2 n ≤ n :=
  (log2Fuel_spec n n (le_refl n) hn).1

theorem lt_ilog2_self {n : ℕ} (hn : n ≠ 0) : n < 2 ^ (ilog2 n + 1) :=
  (log2Fuel_spec n n (le_refl n) hn).2

theorem binExp_spec (x : ℚ) (hx : x ≠ 0) :
    (2 : ℚ) ^ binExp x ≤ |x| ∧ |x| < (2 : ℚ) ^ (binExp x + 1) := by
  have hn : x.num.natAbs ≠ 0 := by
    simpa [Int.natAbs_eq_zero] using hx
  have hd : x.den ≠ 0 := x.den_nz
  have habs : |x| = (x.num.natAbs : ℚ) / (x.den : ℚ) := by
    rw [Rat.abs_def, Rat.divInt_eq_div]
    congr 1
  set a := ilog2 x.num.natAbs with ha
  set b := ilog2 x.den with hb
  have ha1 : (2 : ℚ) ^ (a : ℤ) ≤ (x.num.natAbs : ℚ) := by
    have := ilog2_self_le hn
    rw [zpow_natCast]; exact_mod_cast this
  have ha2 : (x.num.natAbs : ℚ) < (2 : ℚ) ^ ((a : ℤ) + 1) := by
    have := lt_ilog2_self hn
    have h2 : ((a : ℤ) + 1) = ((a + 1 : ℕ) : ℤ) := by push_cast; rfl
    rw [h2, zpow_natCast]; exact_mod_cast this
  have hb1 : (2 : ℚ) ^ (b : ℤ) ≤ (x.den : ℚ) := by
    have := ilog2_self_le hd
    rw [zpow_natCast]; exact_mod_cast this
  have hb2 : (x.den : ℚ) < (2 : ℚ) ^ ((b : ℤ) + 1) := by
    have := lt_ilog2_self hd
    have h2 : ((b : ℤ) + 1) = ((b + 1 : ℕ) : ℤ) := by push_cast; rfl
    rw [h2, zpow_natCast]; exact_mod_cast this
  have hdpos : (0 : ℚ) < (x.den : ℚ) := by exact_mod_cast Nat.pos_of_ne_zero hd
  have h2pos : ∀ k : ℤ, (0 : ℚ) < (2 : ℚ) ^ k := fun k => zpow_pos (by norm_num) k
  have hup : |x| < (2 : ℚ) ^ ((a : ℤ) - (b : ℤ) + 1) := by
    rw [habs, div_lt_iff₀ hdpos]
    calc (x.num.natAbs : ℚ) < (2 : ℚ) ^ ((a : ℤ) + 1) := ha2
      _ = (2 : ℚ) ^ ((a : ℤ) - (b : ℤ) + 1) * (2 : ℚ) ^ (b : ℤ) := by
        rw [← zpow_add₀ (by norm_num : (2 : ℚ) ≠ 0)]; congr 1; ring
      _ ≤ (2 : ℚ) ^ ((a : ℤ) - (b : ℤ) + 1) * (x.den : ℚ) :=
        mul_le_mul_of_nonneg_left hb1 (h2pos _).le
  have hlow : (2 : ℚ) ^ ((a : ℤ) - (b : ℤ) - 1) < |x| := by
    rw [habs, lt_div_iff₀ hdpos]
    calc (2 : ℚ) ^ ((a : ℤ) - (b : ℤ) - 1) * (x.den : ℚ)
        < (2 : ℚ) ^ ((a : ℤ) - (b : ℤ) - 1) * (2 : ℚ) ^ ((b : ℤ) + 1) :=
          mul_lt_mul_of_pos_left hb2 (h2pos _)
      _ = (2 : ℚ) ^ (a : ℤ) := by
        rw [← zpow_add₀ (by norm_num : (2 : ℚ) ≠ 0)]; congr 1; ring
      _ ≤ (x.num.natAbs : ℚ) := ha1
  unfold binExp
  simp only [← ha, ← hb]
  split_ifs with h
  · exact ⟨h, hup⟩
  · refine ⟨hlow.le, ?_⟩
    rw [sub_add_cancel]
    exact not_le.mp h

theorem two_zpow_pos (k : ℤ) : (0 : ℚ) < (2 : ℚ) ^ k := zpow_pos (by norm_num) k

theorem roundHalfEven_bounds (y : ℚ) : ⌊y⌋ ≤ roundHalfEven y ∧ roundHalfEven y ≤ ⌊y⌋ + 1 := by
  unfold roundHalfEven
  split_ifs <;> constructor <;> omega

theorem roundHalfEven_intCast (n : ℤ) : roundHalfEven (n : ℚ) = n := by
  unfold roundHalfEven
  simp

theorem roundHalfEven_mono {y z : ℚ} (h : y ≤ z) : roundHalfEven y ≤ roundHalfEven z := by
  have hf : ⌊y⌋ ≤ ⌊z⌋ := Int.floor_mono h
  rcases lt_or_eq_of_le hf with hlt | heq
  · have h1 := (roundHalfEven_bounds y).2
    have h2 := (roundHalfEven_bounds z).1
    omega
  · unfold roundHalfEven
    rw [← heq]
    have hsub : y - (⌊y⌋ : ℚ) ≤ z - (⌊y⌋ : ℚ) := by linarith
    split_ifs <;> first | omega | (exfalso; linarith)

theorem roundHalfEven_error (y : ℚ) : |(roundHalfEven y : ℚ) - y| ≤ 1 / 2 := by
  have h1 : (⌊y⌋ : ℚ) ≤ y := Int.floor_le y
  have h2 : y < (⌊y⌋ : ℚ) + 1 := Int.lt_floor_add_one y
  unfold roundHalfEven
  rw [abs_le]
  split_ifs <;> push_cast <;> constructor <;> linarith

theorem binExp_unique (x : ℚ) (hx : x ≠ 0) (e : ℤ) (h1 : (2 : ℚ) ^ e ≤ |x|)
    (h2 : |x| < (2 : ℚ) ^ (e + 1)) : binExp x = e := by
  obtain ⟨s1, s2⟩ := binExp_spec x hx
  have a : binExp x < e + 1 :=
    (zpow_lt_zpow_iff_right₀ (by norm_num : (1 : ℚ) < 2)).mp (lt_of_le_of_lt s1 h2)
  have b : e < binExp x + 1 :=
    (zpow_lt_zpow_iff_right₀ (by norm_num : (1 : ℚ) < 2)).mp (lt_of_le_of_lt h1 s2)
  omega

theorem roundBinary_zero (p : ℕ) (emin : ℤ) : roundBinary p emin 0 = 0 := by
  unfold roundBinary
  simp [roundHalfEven]

/-- A representable value is left unchanged by rounding. -/
theorem roundBinary_of_representable (p : ℕ) (emin : ℤ) (v : ℚ)
    (hv : Representable p emin v) : roundBinary p emin v = v := by
  obtain ⟨n, q0, hn, hq0, rfl⟩ := hv
  rcases eq_or_ne n 0 with h0 | h0
  · subst h0
    simp [roundBinary_zero]
  have hvne : (n : ℚ) * (2 : ℚ) ^ q0 ≠ 0 :=
    mul_ne_zero (by exact_mod_cast h0) (two_zpow_pos q0).ne'
  obtain ⟨s1, _⟩ := binExp_spec _ hvne
  have habs : |(n : ℚ) * (2 : ℚ) ^ q0| < (2 : ℚ) ^ ((p : ℤ) + q0) := by
    rw [abs_mul, abs_of_pos (two_zpow_pos q0), zpow_add₀ (by norm_num : (2 : ℚ) ≠ 0)]
    apply mul_lt_mul_of_pos_right _ (two_zpow_pos q0)
    rw [zpow_natCast]
    exact_mod_cast hn
  have he : binExp ((n : ℚ) * (2 : ℚ) ^ q0) < (p : ℤ) + q0 :=
    (zpow_lt_zpow_iff_right₀ (by norm_num : (1 : ℚ) < 2)).mp (lt_of_le_of_lt s1 habs)
  unfold roundBinary
  set q := max (binExp ((n : ℚ) * (2 : ℚ) ^ q0) - ((p : ℤ) - 1)) emin with hq
  have hqle : q ≤ q0 := max_le (by omega) hq0
  obtain ⟨k, hk⟩ : ∃ k : ℕ, q0 = q + k := ⟨(q0 - q).toNat, by omega⟩
  have hdiv : (n : ℚ) * (2 : ℚ) ^ q0 / (2 : ℚ) ^ q = ((n * 2 ^ k : ℤ) : ℚ) := by
    rw [hk, zpow_add₀ (by norm_num : (2 : ℚ) ≠ 0), zpow_natCast]
    field_simp
    ring
  simp only []
  rw [hdiv, roundHalfEven_intCast, ← hdiv]
  field_simp

/-- The result of rounding is representable. -/
theorem roundBinary_representable (p : ℕ) (hp : 1 ≤ p) (emin : ℤ) (x : ℚ) :
    Representable p emin (roundBinary p emin x) := by
  rcases eq_or_ne x 0 with h0 | h0
  · subst h0
    exact ⟨0, emin, by simp, le_refl _, by simp [roundBinary_zero]⟩
  obtain ⟨_, s2⟩ := binExp_spec x h0
  unfold roundBinary
  set q := max (binExp x - ((p : ℤ) - 1)) emin with hq
  have hq1 : binExp x - ((p : ℤ) - 1) ≤ q := le_max_left _ _
  have hq2 : emin ≤ q := le_max_right _ _
  have hbound : |x / (2 : ℚ) ^ q| < (2 : ℚ) ^ (p : ℤ) := by
    rw [abs_div, abs_of_pos (two_zpow_pos q), div_lt_iff₀ (two_zpow_pos q),
      ← zpow_add₀ (by norm_num : (2 : ℚ) ≠ 0)]
    refine lt_of_lt_of_le s2 ?_
    exact (zpow_le_zpow_iff_right₀ (by norm_num : (1 : ℚ) < 2)).mpr (by omega)
  have hup : roundHalfEven (x / (2 : ℚ) ^ q) ≤ 2 ^ p := by
    have := roundHalfEven_mono (le_of_lt (lt_of_le_of_lt (le_abs_self _) hbound))
    rw [zpow_natCast] at this
    have h2 : ((2 : ℚ) ^ p) = (((2 : ℤ) ^ p : ℤ) : ℚ) := by push_cast; rfl
    rw [h2, roundHalfEven_intCast] at this
    exact this
  have hlo : -(2 ^ p) ≤ roundHalfEven (x / (2 : ℚ) ^ q) := by
    have h3 : -((2 : ℚ) ^ (p : ℤ)) ≤ x / (2 : ℚ) ^ q := by
      have := neg_abs_le (x / (2 : ℚ) ^ q)
      linarith
    have := roundHalfEven_mono h3
    rw [zpow_natCast] at this
    have h2 : (-((2 : ℚ) ^ p)) = ((-(2 : ℤ) ^ p : ℤ) : ℚ) := by push_cast; rfl
    rw [h2, roundHalfEven_intCast] at this
    exact this
  set n := roundHalfEven (x / (2 : ℚ) ^ q) with hn
  obtain ⟨p', rfl⟩ : ∃ p', p = p' + 1 := ⟨p - 1, by omega⟩
  by_cases hlt : |n| < 2 ^ (p' + 1)
  · exact ⟨n, q, hlt, hq2, rfl⟩
  · have habs : |n| = 2 ^ (p' + 1) := by
      have : |n| ≤ 2 ^ (p' + 1) := abs_le.mpr ⟨hlo, hup⟩
      omega
    have hpow : (2 : ℤ) ^ (p' + 1) = 2 * 2 ^ p' := by ring
    have hpos : (0 : ℤ) < 2 ^ p' := by positivity
    rcases abs_eq (by positivity : (0 : ℤ) ≤ 2 ^ (p' + 1)) |>.mp habs with h | h
    · refine ⟨2 ^ p', q + 1, ?_, by omega, ?_⟩
      · rw [abs_of_pos hpos]; omega
      · show (n : ℚ) * (2 : ℚ) ^ q = _
        rw [h, zpow_add₀ (by norm_num : (2 : ℚ) ≠ 0)]
        push_cast
        ring
    · refine ⟨-(2 ^ p'), q + 1, ?_, by omega, ?_⟩
      · rw [abs_neg, abs_of_pos hpos]; omega
      · show (n : ℚ) * (2 : ℚ) ^ q = _
        rw [h, zpow_add₀ (by norm_num : (2 : ℚ) ≠ 0)]
        push_cast
        ring

theorem roundBinary_idem (p : ℕ) (hp : 1 ≤ p) (emin : ℤ) (x : ℚ) :
    roundBinary p emin (roundBinary p emin x) = roundBinary p emin x :=
  roundBinary_of_representable p emin _ (roundBinary_representable p hp emin x)

theorem roundBinary_nonneg (p : ℕ) (emin : ℤ) (x : ℚ) (hx : 0 ≤ x) :
    0 ≤ roundBinary p emin x := by
  unfold roundBinary
  apply mul_nonneg _ (two_zpow_pos _).le
  have h := roundHalfEven_mono (div_nonneg hx (two_zpow_pos
    (max (binExp x - ((p : ℤ) - 1)) emin)).le)
  have h0 : roundHalfEven (0 : ℚ) = 0 := by
    have := roundHalfEven_intCast 0
    simpa using this
  rw [h0] at h
  exact_mod_cast h

/-- Rounding is monotone on the non-negative rationals. -/
theorem roundBinary_mono (p : ℕ) (hp : 1 ≤ p) (emin : ℤ) (x y : ℚ) (hx : 0 ≤ x)
    (hxy : x ≤ y) : roundBinary p emin x ≤ roundBinary p emin y := by
  rcases eq_or_lt_of_le hx with h0 | hpos
  · rw [← h0, roundBinary_zero]
    exact roundBinary_nonneg p emin y (le_trans hx hxy)
  have hypos : 0 < y := lt_of_lt_of_le hpos hxy
  obtain ⟨x1, x2⟩ := binExp_spec x hpos.ne'
  obtain ⟨y1, y2⟩ := binExp_spec y hypos.ne'
  rw [abs_of_pos hpos] at x1 x2
  rw [abs_of_pos hypos] at y1 y2
  have hexp : binExp x ≤ binExp y := by
    have : binExp x < binExp y + 1 :=
      (zpow_lt_zpow_iff_right₀ (by norm_num : (1 : ℚ) < 2)).mp
        (lt_of_le_of_lt x1 (lt_of_le_of_lt hxy y2))
    omega
  unfold roundBinary
  set qx := max (binExp x - ((p : ℤ) - 1)) emin with hqx
  set qy := max (binExp y - ((p : ℤ) - 1)) emin with hqy
  have hq : qx ≤ qy := max_le_max (by omega) (le_refl _)
  simp only []
  rcases eq_or_lt_of_le hq with heq | hlt
  · rw [← heq]
    apply mul_le_mul_of_nonneg_right _ (two_zpow_pos qx).le
    have := roundHalfEven_mono (div_le_div_of_nonneg_right hxy (two_zpow_pos qx).le)
    exact_mod_cast this
  · have hqy' : qy = binExp y - ((p : ℤ) - 1) := by
      rcases max_cases (binExp y - ((p : ℤ) - 1)) emin with ⟨h, _⟩ | ⟨h, _⟩
      · exact h
      · have : emin ≤ qx := le_max_right _ _
        rw [← hqy] at h
        omega
    have hqx1 : binExp x - ((p : ℤ) - 1) ≤ qx := le_max_left _ _
    have hlt' : binExp x + 1 ≤ binExp y := by omega
    obtain ⟨k, hk⟩ : ∃ k : ℕ, binExp y = qx + k := ⟨(binExp y - qx).toNat, by omega⟩
    obtain ⟨j, hj⟩ : ∃ j : ℕ, binExp y = qy + j := ⟨(binExp y - qy).toNat, by omega⟩
    have hxB : x ≤ (2 : ℚ) ^ binExp y :=
      le_trans x2.le ((zpow_le_zpow_iff_right₀ (by norm_num : (1 : ℚ) < 2)).mpr hlt')
    have h1 : ((roundHalfEven (x / (2 : ℚ) ^ qx) : ℤ) : ℚ) * (2 : ℚ) ^ qx
        ≤ (2 : ℚ) ^ binExp y := by
      have hdiv : x / (2 : ℚ) ^ qx ≤ (((2 : ℤ) ^ k : ℤ) : ℚ) := by
        rw [div_le_iff₀ (two_zpow_pos qx)]
        push_cast
        rw [← zpow_natCast, ← zpow_add₀ (by norm_num : (2 : ℚ) ≠ 0), add_comm, ← hk]
        exact hxB
      have := roundHalfEven_mono hdiv
      rw [roundHalfEven_intCast] at this
      have h3 : ((roundHalfEven (x / (2 : ℚ) ^ qx) : ℤ) : ℚ) ≤ (((2 : ℤ) ^ k : ℤ) : ℚ) := by
        exact_mod_cast this
      calc ((roundHalfEven (x / (2 : ℚ) ^ qx) : ℤ) : ℚ) * (2 : ℚ) ^ qx
          ≤ (((2 : ℤ) ^ k : ℤ) : ℚ) * (2 : ℚ) ^ qx :=
            mul_le_mul_of_nonneg_right h3 (two_zpow_pos qx).le
        _ = (2 : ℚ) ^ binExp y := by
          push_cast
          rw [← zpow_natCast, ← zpow_add₀ (by norm_num : (2 : ℚ) ≠ 0), add_comm, ← hk]
    have h2 : (2 : ℚ) ^ binExp y
        ≤ ((roundHalfEven (y / (2 : ℚ) ^ qy) : ℤ) : ℚ) * (2 : ℚ) ^ qy := by
      have hdiv : (((2 : ℤ) ^ j : ℤ) : ℚ) ≤ y / (2 : ℚ) ^ qy := by
        rw [le_div_iff₀ (two_zpow_pos qy)]
        push_cast
        rw [← zpow_natCast, ← zpow_add₀ (by norm_num : (2 : ℚ) ≠ 0), add_comm, ← hj]
        exact y1
      have := roundHalfEven_mono hdiv
      rw [roundHalfEven_intCast] at this
      have h3 : (((2 : ℤ) ^ j : ℤ) : ℚ) ≤ ((roundHalfEven (y / (2 : ℚ) ^ qy) : ℤ) : ℚ) := by
        exact_mod_cast this
      calc (2 : ℚ) ^ binExp y = (((2 : ℤ) ^ j : ℤ) : ℚ) * (2 : ℚ) ^ qy := by
            push_cast
            rw [← zpow_natCast, ← zpow_add₀ (by norm_num : (2 : ℚ) ≠ 0), add_comm, ← hj]
        _ ≤ ((roundHalfEven (y / (2 : ℚ) ^ qy) : ℤ) : ℚ) * (2 : ℚ) ^ qy :=
            mul_le_mul_of_nonneg_right h3 (two_zpow_pos qy).le
    exact le_trans h1 h2

/-- Rounding moves a value by at most half a unit of its last place. -/
theorem roundBinary_error (p : ℕ) (emin : ℤ) (x : ℚ) :
    |roundBinary p emin x - x|
      ≤ (2 : ℚ) ^ (max (binExp x - ((p : ℤ) - 1)) emin) / 2 := by
  unfold roundBinary
  set q := max (binExp x - ((p : ℤ) - 1)) emin with hq
  simp only []
  have h := roundHalfEven_error (x / (2 : ℚ) ^ q)
  have hx : x = x / (2 : ℚ) ^ q * (2 : ℚ) ^ q := by
    field_simp
  have : (roundHalfEven (x / (2 : ℚ) ^ q) : ℚ) * (2 : ℚ) ^ q - x
      = ((roundHalfEven (x / (2 : ℚ) ^ q) : ℚ) - x / (2 : ℚ) ^ q) * (2 : ℚ) ^ q := by
    field_simp
  rw [this, abs_mul, abs_of_pos (two_zpow_pos q)]
  calc |(roundHalfEven (x / (2 : ℚ) ^ q) : ℚ) - x / (2 : ℚ) ^ q| * (2 : ℚ) ^ q
      ≤ 1 / 2 * (2 : ℚ) ^ q := mul_le_mul_of_nonneg_right h (two_zpow_pos q).le
    _ = (2 : ℚ) ^ q / 2 := by ring

theorem roundHalfEven_neg (y : ℚ) : roundHalfEven (-y) = -roundHalfEven y := by
  have h1 : (⌊y⌋ : ℚ) ≤ y := Int.floor_le y
  have h2 : y < (⌊y⌋ : ℚ) + 1 := Int.lt_floor_add_one y
  by_cases hint : (⌊y⌋ : ℚ) = y
  · have hf : ⌊-y⌋ = -⌊y⌋ := by
      rw [← hint]
      have : (-(⌊y⌋ : ℚ)) = ((-⌊y⌋ : ℤ) : ℚ) := by push_cast; rfl
      rw [this, Int.floor_intCast, Int.floor_intCast]
    unfold roundHalfEven
    rw [hf]
    push_cast
    have e1 : -y - -(⌊y⌋ : ℚ) = 0 := by rw [hint]; ring
    have e2 : y - (⌊y⌋ : ℚ) = 0 := by rw [hint]; ring
    rw [e1, e2]
    norm_num
  · have hlt : (⌊y⌋ : ℚ) < y := lt_of_le_of_ne h1 hint
    have hf : ⌊-y⌋ = -⌊y⌋ - 1 := by
      rw [Int.floor_eq_iff]
      push_cast
      constructor <;> linarith
    unfold roundHalfEven
    rw [hf]
    push_cast
    split_ifs <;> first | omega | (exfalso; linarith)

theorem binExp_neg (x : ℚ) : binExp (-x) = binExp x := by
  unfold binExp
  simp

theorem roundBinary_neg (p : ℕ) (emin : ℤ) (x : ℚ) :
    roundBinary p emin (-x) = -roundBinary p emin x := by
  unfold roundBinary
  simp only [binExp_neg, neg_div, roundHalfEven_neg]
  push_cast
  ring

/-- Rounding is monotone. -/
theorem roundBinary_monotone (p : ℕ) (hp : 1 ≤ p) (emin : ℤ) (x y : ℚ) (hxy : x ≤ y) :
    roundBinary p emin x ≤ roundBinary p emin y := by
  rcases le_total 0 x with hx | hx
  · exact roundBinary_mono p hp emin x y hx hxy
  rcases le_total 0 y with hy | hy
  · have h1 := roundBinary_nonneg p emin (-x) (by linarith)
    have h2 := roundBinary_nonneg p emin y hy
    rw [roundBinary_neg] at h1
    linarith
  · have := roundBinary_mono p hp emin (-y) (-x) (by linarith) (by linarith)
    rw [roundBinary_neg, roundBinary_neg] at this
    linarith

theorem ieee_sound : ieee.Sound :=
  ⟨roundBinary_zero 53 (-1074), roundBinary_idem 53 (by norm_num) (-1074),
    roundBinary_monotone 53 (by norm_num) (-1074)⟩

theorem exactArith_sound : exactArith.Sound :=
  ⟨rfl, fun _ => rfl, fun _ _ h => h⟩

/-! ## The normalisation loop -/

theorem swapBR_length : ∀ l : List ℕ, (swapBR l).length = l.length
  | [] => rfl
  | [_] => rfl
  | [_, _] => rfl
  | [_, _, _] => rfl
  | _ :: _ :: _ :: _ :: rest => by simp [swapBR, swapBR_length rest]

theorem swapBR_swapBR : ∀ l : List ℕ, swapBR (swapBR l) = l
  | [] => rfl
  | [_] => rfl
  | [_, _] => rfl
  | [_, _, _] => rfl
  | _ :: _ :: _ :: _ :: rest => by simp [swapBR, swapBR_swapBR rest]

theorem swapBR_getElem? :
    ∀ (p : ℕ) (l : List ℕ), 4 * p + 3 < l.length →
      (swapBR l)[4 * p]? = l[4 * p + 2]? ∧ (swapBR l)[4 * p + 1]? = l[4 * p + 1]? ∧
      (swapBR l)[4 * p + 2]? = l[4 * p]? ∧ (swapBR l)[4 * p + 3]? = l[4 * p + 3]? := by
  intro p
  induction p with
  | zero =>
    intro l h
    match l, h with
    | b :: g :: r :: a :: rest, _ => simp [swapBR]
  | succ p ih =>
    intro l h
    match l, h with
    | b :: g :: r :: a :: rest, h =>
      have h1 : 4 * p + 3 < rest.length := by simp at h; omega
      obtain ⟨e0, e1, e2, e3⟩ := ih rest h1
      have a0 : 4 * (p + 1) = 4 * p + 1 + 1 + 1 + 1 := by ring
      have a1 : 4 * (p + 1) + 1 = 4 * p + 1 + 1 + 1 + 1 + 1 := by ring
      have a2 : 4 * (p + 1) + 2 = 4 * p + 2 + 1 + 1 + 1 + 1 := by ring
      have a3 : 4 * (p + 1) + 3 = 4 * p + 3 + 1 + 1 + 1 + 1 := by ring
      refine ⟨?_, ?_, ?_, ?_⟩
      · rw [a2, a0]; simp only [swapBR, List.getElem?_cons_succ]; exact e0
      · rw [a1]; simp only [swapBR, List.getElem?_cons_succ]; exact e1
      · rw [a2, a0]; simp only [swapBR, List.getElem?_cons_succ]; exact e2
      · rw [a3]; simp only [swapBR, List.getElem?_cons_succ]; exact e3

/-- The loop started at the end of a processed part `pre`, with a whole number of pixels
left, finishes and swaps the channels of the remaining pixels. -/
theorem swapLoop_append (pre : List ℕ) :
    ∀ (n : ℕ) (rest : List ℕ), rest.length = 4 * n →
      swapLoop (pre ++ rest) pre.length = some (pre ++ swapBR rest) := by
  intro n
  induction n generalizing pre with
  | zero =>
    intro rest h
    have : rest = [] := List.length_eq_zero.mp (by simpa using h)
    subst this
    rw [swapLoop]
    simp [swapBR]
  | succ n ih =>
    intro rest h
    match rest, h with
    | b :: g :: r :: a :: rest, h =>
      have hlen : rest.length = 4 * n := by simp at h; omega
      rw [swapLoop]
      have h1 : pre.length < (pre ++ b :: g :: r :: a :: rest).length := by simp
      rw [dif_pos h1]
      have h2 : (pre ++ b :: g :: r :: a :: rest)[pre.length + 2]? = some r := by
        rw [List.getElem?_append_right (by omega)]
        simp
      have h3 : (pre ++ b :: g :: r :: a :: rest)[pre.length] = b := by
        rw [List.getElem_append_right (by omega)]
        simp
      simp only [h2, h3]
      have h4 : ((pre ++ b :: g :: r :: a :: rest).set (pre.length + 2) b).set pre.length r
          = (pre ++ [r, g, b, a]) ++ rest := by
        rw [List.set_append_right _ _ (by omega)]
        rw [List.set_append_right _ _ (by omega)]
        simp
      rw [h4]
      have := ih (pre ++ [r, g, b, a]) rest hlen
      simp only [List.length_append, List.length_cons, List.length_nil] at this
      rw [this]
      simp [swapBR]
    | [], h => simp at h
    | [_], h => simp at h; omega
    | [_, _], h => simp at h; omega
    | [_, _, _], h => simp at h; omega

/-- On an array whose length is a multiple of 4 the loop returns the channel swap. -/
theorem swapLoop_eq (pixels : List ℕ) (h : pixels.length % 4 = 0) :
    swapLoop pixels 0 = some (swapBR pixels) := by
  have := swapLoop_append [] (pixels.length / 4) pixels (by omega)
  simpa using this

/-- C5. Normalizer channel swap: on every byte sequence whose length is a multiple of 4
the normalisation loop returns a sequence of the same length in which, in every pixel
`p`, bytes 0 and 2 have changed places and bytes 1 and 3 are unchanged; the pixel
`(10, 20, 30, 40)` becomes `(30, 20, 10, 40)`. -/
theorem C5_normalizer_channel_swap (pixels : List ℕ) (h : pixels.length % 4 = 0) :
    (∃ out, swapLoop pixels 0 = some out ∧ out.length = pixels.length ∧
      ∀ p, 4 * p + 3 < pixels.length →
        out[4 * p]? = pixels[4 * p + 2]? ∧ out[4 * p + 2]? = pixels[4 * p]? ∧
        out[4 * p + 1]? = pixels[4 * p + 1]? ∧ out[4 * p + 3]? = pixels[4 * p + 3]?) ∧
    swapLoop [10, 20, 30, 40] 0 = some [30, 20, 10, 40] := by
  refine ⟨⟨swapBR pixels, swapLoop_eq pixels h, swapBR_length pixels, ?_⟩, ?_⟩
  · intro p hp
    obtain ⟨e0, e1, e2, e3⟩ := swapBR_getElem? p pixels hp
    exact ⟨e0, e2, e1, e3⟩
  · exact swapLoop_eq [10, 20, 30, 40] rfl

/-- The channel swap at a buffer of two pixels. -/
theorem C5_normalizer_channel_swap_witness :
    [1, 2, 3, 4, 5, 6, 7, 8].length % 4 = 0 ∧
    swapLoop [1, 2, 3, 4, 5, 6, 7, 8] 0 = some [3, 2, 1, 4, 7, 6, 5, 8] ∧
    swapLoop [10, 20, 30, 40] 0 = some [30, 20, 10, 40] := by
  have key := C5_normalizer_channel_swap [1, 2, 3, 4, 5, 6, 7, 8] (by decide)
  refine ⟨by decide, ?_, key.2⟩
  simp [swapLoop]

/-- C6. Normalizer involution: on every pixel byte buffer (length a multiple of 4),
running the swap loop on its own output returns the original buffer. -/
theorem C6_normalizer_involution (pixels : List ℕ) (h : pixels.length % 4 = 0) :
    ∃ out, swapLoop pixels 0 = some out ∧ swapLoop out 0 = some pixels := by
  refine ⟨swapBR pixels, swapLoop_eq pixels h, ?_⟩
  rw [swapLoop_eq (swapBR pixels) (by rw [swapBR_length]; exact h), swapBR_swapBR]

/-- The involution at one pixel. -/
theorem C6_normalizer_involution_witness :
    [10, 20, 30, 40].length % 4 = 0 ∧
    ∃ out, swapLoop [10, 20, 30, 40] 0 = some out ∧ swapLoop out 0 = some [10, 20, 30, 40] :=
  ⟨by decide, C6_normalizer_involution [10, 20, 30, 40] (by decide)⟩

/-! ## Buffer sizes -/

theorem bufferBytes_length : ∀ l : List ℕ, (bufferBytes l).length = 4 * l.length
  | [] => rfl
  | v :: rest => by
    simp only [bufferBytes, pixelBytes, List.length_append, List.length_cons, List.length_nil,
      bufferBytes_length rest]
    omega

theorem toInt32_of_lt (n : ℕ) (h : n < 2 ^ 31) : toInt32 n = (n : ℤ) := by
  have h1 : n % 2 ^ 32 = n := Nat.mod_eq_of_lt (by omega)
  unfold toInt32
  rw [h1, if_pos h]

theorem toInt32_nonneg_eq (n : ℕ) (h : 0 ≤ toInt32 n) : toInt32 n = ((n % 2 ^ 32 : ℕ) : ℤ) := by
  unfold toInt32 at h ⊢
  split
  · rfl
  · rename_i hlt
    rw [if_neg hlt] at h
    have : n % 2 ^ 32 < 2 ^ 32 := Nat.mod_lt _ (by norm_num)
    omega

theorem frameBuffer_length (A : Arith) (lottie : Animation) (width height : ℕ) (time : ℚ) :
    (frameBuffer A lottie width height time).length = width * height := by
  simp [frameBuffer]

/-- The image built by the loop body when the pixel count fits an `int` and the byte
count, read as `int32_t`, is not negative: the channel swap of the first bytes of the
buffer, as many as the `int32_t` byte count says. -/
theorem renderFrame_image_eq (A : Arith) (lottie : Animation) (width height : ℕ) (time : ℚ)
    (hfit : width * height < 2 ^ 31) (hbytes : 0 ≤ toInt32 (width * height * 4)) :
    (renderFrame A lottie width height time).image
      = some ⟨toInt32 width, toInt32 height,
          swapBR ((bufferBytes (frameBuffer A lottie width height time)).take
            (width * height * 4 % 2 ^ 32))⟩ ∧
    ((bufferBytes (frameBuffer A lottie width height time)).take
      (width * height * 4 % 2 ^ 32)).length = width * height * 4 % 2 ^ 32 := by
  have hmod : width * height % 2 ^ 64 = width * height := Nat.mod_eq_of_lt (by omega)
  have hreq : toInt32 (width * height % 2 ^ 64) = ((width * height : ℕ) : ℤ) := by
    rw [hmod]; exact toInt32_of_lt _ hfit
  have hsize : (if toInt32 (width * height % 2 ^ 64) < 0 then 0
      else (toInt32 (width * height % 2 ^ 64)).toNat) = width * height := by
    rw [hreq, if_neg (by omega), Int.toNat_ofNat]
  have hb := toInt32_nonneg_eq _ hbytes
  have htake : ((bufferBytes (frameBuffer A lottie width height time)).take
      (width * height * 4 % 2 ^ 32)).length = width * height * 4 % 2 ^ 32 := by
    rw [List.length_take, bufferBytes_length, frameBuffer_length]
    have : width * height * 4 % 2 ^ 32 ≤ width * height * 4 := Nat.mod_le _ _
    omega
  have hmul : ((bufferBytes (frameBuffer A lottie width height time)).take
      (width * height * 4 % 2 ^ 32)).length % 4 = 0 := by
    rw [htake]; omega
  refine ⟨?_, htake⟩
  unfold renderFrame
  simp only [hsize, lt_irrefl, if_false, List.length_map, List.length_range, hb]
  rw [if_neg (by omega), Int.toNat_ofNat]
  have := swapLoop_eq _ hmul
  unfold frameBuffer at this
  rw [this]
  rfl

theorem renderFrame_image (A : Arith) (lottie : Animation) (width height : ℕ) (time : ℚ)
    (hfit : width * height < 2 ^ 31) (hbytes : 0 ≤ toInt32 (width * height * 4)) :
    ∃ pixels, (renderFrame A lottie width height time).image
        = some ⟨toInt32 width, toInt32 height, pixels⟩ ∧
      pixels.length = (width * height * 4) % 2 ^ 32 := by
  obtain ⟨h1, h2⟩ := renderFrame_image_eq A lottie width height time hfit hbytes
  exact ⟨_, h1, by rw [swapBR_length, h2]⟩

theorem scaleDim_ieee_scenario : scaleDim ieee 100 2 = some 200 := by decide!

theorem scaleDim_ieee_pow30 : scaleDim ieee 1073741824 1 = some 1073741824 := by decide!

/-- C7 (as amended). Normalizer size invariant: for non-zero output width and height
whose byte count `width * height * 4` fits the 32-bit signed size, the loop body builds,
at every time and in either arithmetic, a byte array of length exactly
`width * height * 4` and passes it on with that width and height; native dimensions
100x100 scaled by (2,2) give 200x200 frames of 160000 bytes. -/
theorem C7_frame_byte_length (A : Arith) (lottie : Animation) (width height : ℕ) (time : ℚ)
    (hw : width ≠ 0) (hh : height ≠ 0) (hfit : width * height * 4 < 2 ^ 31) :
    (∃ img, (renderFrame A lottie width height time).image = some img ∧
      img.data.length = width * height * 4 ∧
      img.width = (width : ℤ) ∧ img.height = (height : ℤ)) ∧
    (scaleDim ieee 100 2 = some 200 ∧
      ∃ img, (renderFrame A lottie 200 200 time).image = some img ∧
        img.data.length = 160000 ∧ img.width = 200 ∧ img.height = 200) := by
  have general : ∀ w h : ℕ, w ≠ 0 → h ≠ 0 → w * h * 4 < 2 ^ 31 →
      ∃ img, (renderFrame A lottie w h time).image = some img ∧
        img.data.length = w * h * 4 ∧ img.width = (w : ℤ) ∧ img.height = (h : ℤ) := by
    intro w h hw hh hfit
    have hwpos : 0 < w := Nat.pos_of_ne_zero hw
    have hhpos : 0 < h := Nat.pos_of_ne_zero hh
    have hwle : w ≤ w * h := Nat.le_mul_of_pos_right w hhpos
    have hhle : h ≤ w * h := Nat.le_mul_of_pos_left h hwpos
    have hb : toInt32 (w * h * 4) = ((w * h * 4 : ℕ) : ℤ) := toInt32_of_lt _ hfit
    obtain ⟨pixels, himg, hlen⟩ :=
      renderFrame_image A lottie w h time (by omega) (by rw [hb]; exact Int.ofNat_nonneg _)
    refine ⟨_, himg, ?_, ?_, ?_⟩
    · show pixels.length = w * h * 4
      rw [hlen]; exact Nat.mod_eq_of_lt (by omega)
    · exact toInt32_of_lt w (by omega)
    · exact toInt32_of_lt h (by omega)
  refine ⟨general width height hw hh hfit, scaleDim_ieee_scenario, ?_⟩
  obtain ⟨img, h1, h2, h3, h4⟩ := general 200 200 (by decide) (by decide) (by norm_num)
  exact ⟨img, h1, by simpa using h2, by simpa using h3, by simpa using h4⟩

/-- The size invariant at a 2x1 surface, in the arithmetic of the code. -/
theorem C7_frame_byte_length_witness :
    (2 : ℕ) ≠ 0 ∧ (1 : ℕ) ≠ 0 ∧ 2 * 1 * 4 < 2 ^ 31 ∧
    ∃ img, (renderFrame ieee ⟨2, 1, 90, 30, fun _ _ _ i => 67305985 + i⟩ 2 1 0).image
        = some img ∧
      img.data.length = 2 * 1 * 4 :=
  ⟨by decide, by decide, by norm_num,
    let ⟨img, h1, h2, _⟩ :=
      (C7_frame_byte_length ieee ⟨2, 1, 90, 30, fun _ _ _ i => 67305985 + i⟩ 2 1 0
        (by decide) (by decide) (by norm_num)).1
    ⟨img, h1, h2⟩⟩

/-- C7 as stated fails: a native width 1073741824 and height 1 with scale (1,1) pass the
`float` scaling unchanged, the pixel buffer holds 1073741824 pixels, the byte size
4294967296 read as `int32_t` is 0, and the byte array passed to the image is empty, not
`width * height * 4` bytes long. -/
theorem C7_counterexample :
    scaleDim ieee 1073741824 1 = some 1073741824 ∧ scaleDim ieee 1 1 = some 1 ∧
    (1073741824 : ℕ) ≠ 0 ∧ (1 : ℕ) ≠ 0 ∧
    ∃ img, (renderFrame ieee ⟨1073741824, 1, 90, 30, fun _ _ _ _ => 0⟩ 1073741824 1 0).image
        = some img ∧
      img.data.length = 0 ∧ img.data.length ≠ 1073741824 * 1 * 4 := by
  refine ⟨scaleDim_ieee_pow30, by decide!, by decide, by decide, ?_⟩
  have hb : toInt32 (1073741824 * 1 * 4) = 0 := by
    unfold toInt32; norm_num
  obtain ⟨pixels, himg, hlen⟩ :=
    renderFrame_image ieee ⟨1073741824, 1, 90, 30, fun _ _ _ _ => 0⟩ 1073741824 1 0
      (by norm_num) (by rw [hb])
  have h0 : pixels.length = 0 := by rw [hlen]; norm_num
  refine ⟨_, himg, h0, ?_⟩
  show pixels.length ≠ 1073741824 * 1 * 4
  rw [h0]; decide

/-! ## The render loop in closed form -/

@[simp] theorem renderFrame_time (A : Arith) (lottie : Animation) (width height : ℕ)
    (time : ℚ) : (renderFrame A lottie width height time).time = time := rfl

@[simp] theorem renderFrame_original_frame (A : Arith) (lottie : Animation)
    (width height : ℕ) (time : ℚ) :
    (renderFrame A lottie width height time).original_frame
      = ⌊A.double (time * A.double lottie.frameRate)⌋ := rfl

theorem stepTime_shift (A : Arith) (increment start : ℚ) :
    ∀ k : ℕ, stepTime A increment (A.double (start + increment)) k
      = stepTime A increment start (k + 1)
  | 0 => rfl
  | k + 1 => by
    show A.double (stepTime A increment (A.double (start + increment)) k + increment) = _
    rw [stepTime_shift A increment start k]
    rfl

theorem closedFrames_succ (A : Arith) (lottie : Animation) (width height : ℕ)
    (increment length start : ℚ) (count : ℕ) :
    closedFrames A lottie width height increment length start (count + 1)
      = renderFrame A lottie width height start
          :: closedFrames A lottie width height increment length
              (A.double (start + increment)) count := by
  unfold closedFrames
  rw [List.range_succ_eq_map, List.map_cons, List.map_map, List.cons_append]
  congr 1
  congr 1
  apply List.map_congr_left
  intro k _
  simp only [Function.comp]
  rw [stepTime_shift]

theorem closedFrames_length (A : Arith) (lottie : Animation) (width height : ℕ)
    (increment length start : ℚ) (count : ℕ) :
    (closedFrames A lottie width height increment length start count).length = count + 1 := by
  simp [closedFrames]

/-- The timestamps of the closed form. -/
theorem closedFrames_times (A : Arith) (lottie : Animation) (width height : ℕ)
    (increment length start : ℚ) (count : ℕ) :
    (closedFrames A lottie width height increment length start count).map RenderedFrame.time
      = (List.range count).map (stepTime A increment start) ++ [length] := by
  simp [closedFrames, Function.comp_def]

/-- If the first `m` steps from `t` stay below `length` and step `m + 1` reaches it, the
loop started at `t` makes `m + 2` passes and appends the closed form. -/
theorem renderLoop_run (A : Arith) (lottie : Animation) (width height : ℕ)
    (increment length : ℚ) :
    ∀ (m : ℕ) (t : ℚ) (acc : List RenderedFrame) (fuel : ℕ),
      (∀ j : ℕ, 1 ≤ j → j ≤ m → stepTime A increment t j < length) →
      length ≤ stepTime A increment t (m + 1) → m + 2 ≤ fuel →
      renderLoop A lottie width height increment length fuel t false acc
        = some (acc ++ closedFrames A lottie width height increment length t (m + 1)) := by
  intro m
  induction m with
  | zero =>
    intro t acc fuel _ hreach hfuel
    obtain ⟨f, rfl⟩ : ∃ f, fuel = f + 2 := ⟨fuel - 2, by omega⟩
    have hge : A.double (t + increment) ≥ length := hreach
    simp [renderLoop, closedFrames, hge, List.range_succ, stepTime]
  | succ m ih =>
    intro t acc fuel hbelow hreach hfuel
    obtain ⟨f, rfl⟩ : ∃ f, fuel = f + 1 := ⟨fuel - 1, by omega⟩
    have h1 : A.double (t + increment) < length := hbelow 1 (le_refl 1) (by omega)
    have hstep : renderLoop A lottie width height increment length (f + 1) t false acc
        = renderLoop A lottie width height increment length f (A.double (t + increment))
            false (acc ++ [renderFrame A lottie width height t]) := by
      simp [renderLoop, not_le.mpr h1]
    rw [hstep, ih (A.double (t + increment)) _ f ?_ ?_ (by omega),
      closedFrames_succ _ _ _ _ _ _ t (m + 1)]
    · simp
    · intro j hj1 hjm
      rw [stepTime_shift]
      exact hbelow (j + 1) (by omega) (by omega)
    · rw [stepTime_shift]
      exact hreach

/-- Every finished run of the loop is an instance of the closed form. -/
theorem renderLoop_inv (A : Arith) (lottie : Animation) (width height : ℕ)
    (increment length : ℚ) :
    ∀ (fuel : ℕ) (t : ℚ) (acc frames : List RenderedFrame),
      renderLoop A lottie width height increment length fuel t false acc = some frames →
      ∃ m : ℕ, (∀ j : ℕ, 1 ≤ j → j ≤ m → stepTime A increment t j < length) ∧
        length ≤ stepTime A increment t (m + 1) ∧
        frames = acc ++ closedFrames A lottie width height increment length t (m + 1) := by
  intro fuel
  induction fuel with
  | zero =>
    intro t acc frames h
    simp [renderLoop] at h
  | succ f ih =>
    intro t acc frames h
    by_cases hge : A.double (t + increment) ≥ length
    · cases f with
      | zero => simp [renderLoop, hge] at h
      | succ f =>
        refine ⟨0, fun j h1 h0 => absurd h1 (by omega), hge, ?_⟩
        simp [renderLoop, hge] at h
        rw [← h]
        simp [closedFrames, List.range_succ, stepTime]
    · have hstep : renderLoop A lottie width height increment length (f + 1) t false acc
          = renderLoop A lottie width height increment length f (A.double (t + increment))
              false (acc ++ [renderFrame A lottie width height t]) := by
        simp [renderLoop, hge]
      rw [hstep] at h
      obtain ⟨m, hbelow, hreach, hframes⟩ := ih _ _ _ h
      refine ⟨m + 1, ?_, ?_, ?_⟩
      · intro j hj1 hjm
        rcases Nat.eq_or_lt_of_le hj1 with h1 | h1
        · rw [← h1]; exact not_le.mp hge
        · obtain ⟨i, rfl⟩ : ∃ i, j = i + 1 := ⟨j - 1, by omega⟩
          rw [← stepTime_shift]
          exact hbelow i (by omega) (by omega)
      · rw [← stepTime_shift]; exact hreach
      · rw [hframes, closedFrames_succ _ _ _ _ _ _ t (m + 1)]
        simp

/-- A checked list of steps is what the loop renders. -/
theorem stepsOk_run (A : Arith) (lottie : Animation) (width height : ℕ)
    (increment length : ℚ) :
    ∀ (rest : List ℚ) (t : ℚ) (acc : List RenderedFrame) (fuel : ℕ),
      stepsOk A increment length t rest = true → rest.length + 2 ≤ fuel →
      renderLoop A lottie width height increment length fuel t false acc
        = some (acc ++ (t :: rest).map (renderFrame A lottie width height)
            ++ [renderFrame A lottie width height length]) := by
  intro rest
  induction rest with
  | nil =>
    intro t acc fuel hok hfuel
    obtain ⟨f, rfl⟩ : ∃ f, fuel = f + 2 := ⟨fuel - 2, by simp at hfuel; omega⟩
    have hge : A.double (t + increment) ≥ length := by simpa [stepsOk] using hok
    simp [renderLoop, hge]
  | cons u rest ih =>
    intro t acc fuel hok hfuel
    obtain ⟨f, rfl⟩ : ∃ f, fuel = f + 1 := ⟨fuel - 1, by omega⟩
    simp only [stepsOk, Bool.and_eq_true, decide_eq_true_eq] at hok
    obtain ⟨⟨hu, hlt⟩, hrest⟩ := hok
    have hstep : renderLoop A lottie width height increment length (f + 1) t false acc
        = renderLoop A lottie width height increment length f u
            false (acc ++ [renderFrame A lottie width height t]) := by
      simp [renderLoop, hu, not_le.mpr hlt]
    rw [hstep, ih u _ f hrest (by simp at hfuel ⊢; omega)]
    simp

/-! ## Exact arithmetic -/

@[simp] theorem exactArith_double (x : ℚ) : exactArith.double x = x := rfl

@[simp] theorem exactArith_isFinite (x : ℚ) : exactArith.isFinite x = true := rfl

theorem stepTime_exact (increment start : ℚ) :
    ∀ k : ℕ, stepTime exactArith increment start k = start + (k : ℚ) * increment
  | 0 => by simp [stepTime]
  | k + 1 => by
    show stepTime exactArith increment start k + increment = _
    rw [stepTime_exact increment start k]
    push_cast
    ring

theorem CLAMP_eq_max_min (a len : ℚ) (h : 0 ≤ len) : CLAMP a 0 len = max 0 (min a len) := by
  unfold CLAMP
  split_ifs with h1 h2
  · rw [max_eq_left]; exact le_trans (min_le_left _ _) h1.le
  · rw [min_eq_right h2.le, max_eq_right h]
  · rw [min_eq_left (not_lt.mp h2), max_eq_right (not_lt.mp h1)]

theorem CLAMP_nonneg (a len : ℚ) (h : 0 ≤ len) : 0 ≤ CLAMP a 0 len := by
  rw [CLAMP_eq_max_min a len h]; exact le_max_left _ _

theorem CLAMP_le (a len : ℚ) (h : 0 ≤ len) : CLAMP a 0 len ≤ len := by
  rw [CLAMP_eq_max_min a len h]; exact max_le h (min_le_right _ _)

theorem stepCount_pos (start length frame_rate : ℚ) : 1 ≤ stepCount start length frame_rate :=
  le_max_left _ _

/-- Steps `1 .. stepCount - 1` from the start stay strictly below `length`. -/
theorem step_below (start length frame_rate : ℚ) (hfr : 0 < frame_rate) (k : ℕ)
    (hk1 : 1 ≤ k) (hk : k < stepCount start length frame_rate) :
    start + (k : ℚ) * (1 / frame_rate) < length := by
  have hk2 : k < ⌈(length - start) * frame_rate⌉.toNat := by
    unfold stepCount at hk
    rcases lt_max_iff.mp hk with h | h
    · omega
    · exact h
  have hk3 : (k : ℤ) < ⌈(length - start) * frame_rate⌉ := by
    have := Int.lt_toNat.mp hk2
    exact_mod_cast this
  have hk4 : ((k : ℤ) : ℚ) < (length - start) * frame_rate := Int.lt_ceil.mp hk3
  have hk5 : (k : ℚ) / frame_rate < length - start := by
    rw [div_lt_iff₀ hfr]; exact_mod_cast hk4
  have : (k : ℚ) * (1 / frame_rate) = (k : ℚ) / frame_rate := by ring
  rw [this]; linarith

/-- Step `stepCount` from the start reaches `length`. -/
theorem step_reach (start length frame_rate : ℚ) (hfr : 0 < frame_rate) :
    length ≤ start + (stepCount start length frame_rate : ℚ) * (1 / frame_rate) := by
  have h1 : ⌈(length - start) * frame_rate⌉
      ≤ ((stepCount start length frame_rate : ℕ) : ℤ) := by
    have : ⌈(length - start) * frame_rate⌉.toNat ≤ stepCount start length frame_rate :=
      le_max_right _ _
    have h2 := Int.self_le_toNat ⌈(length - start) * frame_rate⌉
    omega
  have h2 : (length - start) * frame_rate ≤ ((stepCount start length frame_rate : ℕ) : ℚ) := by
    have := Int.ceil_le.mp h1
    exact_mod_cast this
  have h3 : length - start ≤ (stepCount start length frame_rate : ℚ) / frame_rate := by
    rw [le_div_iff₀ hfr]; exact h2
  have : (stepCount start length frame_rate : ℚ) * (1 / frame_rate)
      = (stepCount start length frame_rate : ℚ) / frame_rate := by ring
  rw [this]; linarith

/-- In exact arithmetic, with a positive requested frame rate and a non-zero native frame
rate, the loop of the operation finishes within `stepCount + 1` passes and its frames are
the closed form. -/
theorem renderTrack_exact (lottie : Animation) (width height : ℕ) (p_options : Options)
    (hfr : 0 < p_options.frame_rate) (hnz : lottie.frameRate ≠ 0) (fuel : ℕ)
    (hfuel : stepCount (CLAMP p_options.start_time 0 (lottie.totalFrame / lottie.frameRate))
      (lottie.totalFrame / lottie.frameRate) p_options.frame_rate + 1 ≤ fuel) :
    renderTrack exactArith lottie width height p_options fuel
      = some (closedFrames exactArith lottie width height (1 / p_options.frame_rate)
          (lottie.totalFrame / lottie.frameRate)
          (CLAMP p_options.start_time 0 (lottie.totalFrame / lottie.frameRate))
          (stepCount (CLAMP p_options.start_time 0 (lottie.totalFrame / lottie.frameRate))
            (lottie.totalFrame / lottie.frameRate) p_options.frame_rate)) := by
  set len := lottie.totalFrame / lottie.frameRate with hlen
  set s := CLAMP p_options.start_time 0 len with hs
  obtain ⟨m, hm⟩ : ∃ m, stepCount s len p_options.frame_rate = m + 1 :=
    ⟨stepCount s len p_options.frame_rate - 1,
      by have := stepCount_pos s len p_options.frame_rate; omega⟩
  unfold renderTrack
  simp only [exactArith_double, exactArith_isFinite, hfr.ne', hnz, or_self, if_false]
  rw [← hlen, ← hs, hm]
  have := renderLoop_run exactArith lottie width height (1 / p_options.frame_rate) len m s []
    fuel ?_ ?_ (by omega)
  · simpa using this
  · intro j hj1 hjm
    rw [stepTime_exact]
    exact step_below s len p_options.frame_rate hfr j hj1 (by omega)
  · have := step_reach s len p_options.frame_rate hfr
    rw [hm] at this
    rw [stepTime_exact]
    exact this

/-- The timestamps of the closed form in exact arithmetic. -/
theorem closedFrames_times_exact (lottie : Animation) (width height : ℕ)
    (increment length start : ℚ) (count : ℕ) :
    (closedFrames exactArith lottie width height increment length start count).map
        RenderedFrame.time
      = (List.range count).map (fun k : ℕ => start + (k : ℚ) * increment) ++ [length] := by
  rw [closedFrames_times]
  congr 1
  apply List.map_congr_left
  intro k _
  exact stepTime_exact increment start k

/-! ## The sampler -/

/-- C1. Sampler bounds: in exact arithmetic, for every start time, every positive frame
rate and every duration `length = totalFrame / nativeFrameRate ≥ 0`, the render loop
finishes and the first timestamp it renders is `clamp(start_time, 0, length)`, the last
one `length`. -/
theorem C1_sampler_bounds (lottie : Animation) (width height : ℕ) (p_options : Options)
    (hfr : 0 < p_options.frame_rate) (hnz : lottie.frameRate ≠ 0)
    (hlen : 0 ≤ lottie.totalFrame / lottie.frameRate) :
    ∃ N, ∀ fuel, N ≤ fuel → ∃ frames,
      renderTrack exactArith lottie width height p_options fuel = some frames ∧
      (frames.map RenderedFrame.time).head?
        = some (max 0 (min p_options.start_time (lottie.totalFrame / lottie.frameRate))) ∧
      (frames.map RenderedFrame.time).getLast?
        = some (lottie.totalFrame / lottie.frameRate) := by
  refine ⟨_, fun fuel hfuel =>
    ⟨_, renderTrack_exact lottie width height p_options hfr hnz fuel hfuel, ?_, ?_⟩⟩
  · obtain ⟨m, hm⟩ : ∃ m, stepCount
        (CLAMP p_options.start_time 0 (lottie.totalFrame / lottie.frameRate))
        (lottie.totalFrame / lottie.frameRate) p_options.frame_rate = m + 1 :=
      ⟨_, (Nat.sub_add_cancel (stepCount_pos _ _ _)).symm⟩
    rw [hm, closedFrames_succ, List.map_cons, List.head?_cons, renderFrame_time,
      CLAMP_eq_max_min _ _ hlen]
  · rw [closedFrames_times_exact, List.getLast?_append]
    simp

/-- The sampler bounds on a 3 second animation sampled from 1/2 s at 2 frames a second. -/
theorem C1_sampler_bounds_witness :
    ∃ N, ∀ fuel, N ≤ fuel → ∃ frames,
      renderTrack exactArith ⟨1, 1, 90, 30, fun _ _ _ _ => 0⟩ 1 1 ⟨false, 1 / 2, 2, ⟨1, 1⟩, true, true, 0⟩
        fuel = some frames ∧
      (frames.map RenderedFrame.time).head? = some (max 0 (min (1 / 2) (90 / 30))) ∧
      (frames.map RenderedFrame.time).getLast? = some (90 / 30) :=
  C1_sampler_bounds ⟨1, 1, 90, 30, fun _ _ _ _ => 0⟩ 1 1 ⟨false, 1 / 2, 2, ⟨1, 1⟩, true, true, 0⟩
    (by norm_num) (by norm_num) (by norm_num)

/-- C10. Termination and frame count: in exact arithmetic, for every start time, every
positive frame rate and every `length ≥ 0`, the render loop finishes and appends exactly
`max(1, ceil((length - s) * frame_rate)) + 1` frames, `s` the clamped start; the track
holds at least 2 frames. -/
theorem C10_frame_count (lottie : Animation) (width height : ℕ) (p_options : Options)
    (hfr : 0 < p_options.frame_rate) (hnz : lottie.frameRate ≠ 0)
    (hlen : 0 ≤ lottie.totalFrame / lottie.frameRate) :
    ∃ N, ∀ fuel, N ≤ fuel → ∃ frames,
      renderTrack exactArith lottie width height p_options fuel = some frames ∧
      (frames.length : ℤ)
        = max 1 ⌈(lottie.totalFrame / lottie.frameRate
            - max 0 (min p_options.start_time (lottie.totalFrame / lottie.frameRate)))
            * p_options.frame_rate⌉ + 1 ∧
      2 ≤ frames.length := by
  refine ⟨_, fun fuel hfuel =>
    ⟨_, renderTrack_exact lottie width height p_options hfr hnz fuel hfuel, ?_, ?_⟩⟩
  · rw [closedFrames_length, CLAMP_eq_max_min _ _ hlen]
    unfold stepCount
    push_cast
    congr 1
    rcases le_total 0 ⌈(lottie.totalFrame / lottie.frameRate
        - max 0 (min p_options.start_time (lottie.totalFrame / lottie.frameRate)))
        * p_options.frame_rate⌉ with h | h
    · rw [Int.toNat_of_nonneg h]
    · rw [Int.toNat_eq_zero.mpr h]
      simp [max_eq_left (le_trans h (by norm_num : (0 : ℤ) ≤ 1))]
  · rw [closedFrames_length]
    have := stepCount_pos (CLAMP p_options.start_time 0 (lottie.totalFrame / lottie.frameRate))
      (lottie.totalFrame / lottie.frameRate) p_options.frame_rate
    omega

/-- The frame count on a 3 second animation sampled from 1/2 s at 2 frames a second. -/
theorem C10_frame_count_witness :
    ∃ N, ∀ fuel, N ≤ fuel → ∃ frames,
      renderTrack exactArith ⟨1, 1, 90, 30, fun _ _ _ _ => 0⟩ 1 1 ⟨false, 1 / 2, 2, ⟨1, 1⟩, true, true, 0⟩
        fuel = some frames ∧
      (frames.length : ℤ) = max 1 ⌈((90 : ℚ) / 30 - max 0 (min (1 / 2) (90 / 30))) * 2⌉ + 1 ∧
      2 ≤ frames.length :=
  C10_frame_count ⟨1, 1, 90, 30, fun _ _ _ _ => 0⟩ 1 1 ⟨false, 1 / 2, 2, ⟨1, 1⟩, true, true, 0⟩
    (by norm_num) (by norm_num) (by norm_num)

/-! ## The minimal case -/

/-- The increment of a positive frame rate is not negative. -/
theorem increment_nonneg (A : Arith) (hA : A.Sound) (frame_rate : ℚ) (hfr : 0 < frame_rate) :
    0 ≤ A.double (1 / frame_rate) := by
  have := hA.double_mono 0 (1 / frame_rate) (one_div_pos.mpr hfr).le
  rwa [hA.double_zero] at this

/-- A run whose clamped start is the length makes two passes, both at `length`. -/
theorem minimal_run (A : Arith) (hA : A.Sound) (lottie : Animation) (width height : ℕ)
    (p_options : Options) (hfr : 0 < A.double p_options.frame_rate)
    (hnz : A.double lottie.frameRate ≠ 0)
    (hfin : A.isFinite (A.double (A.double lottie.totalFrame / A.double lottie.frameRate))
      = true)
    (hs : CLAMP (A.double p_options.start_time) 0
        (A.double (A.double lottie.totalFrame / A.double lottie.frameRate))
      = A.double (A.double lottie.totalFrame / A.double lottie.frameRate))
    (fuel : ℕ) (hfuel : 2 ≤ fuel) :
    renderTrack A lottie width height p_options fuel
      = some [renderFrame A lottie width height
            (A.double (A.double lottie.totalFrame / A.double lottie.frameRate)),
          renderFrame A lottie width height
            (A.double (A.double lottie.totalFrame / A.double lottie.frameRate))] := by
  set len := A.double (A.double lottie.totalFrame / A.double lottie.frameRate) with hlen
  have hrep : A.double len = len := hA.double_idem _
  have hinc := increment_nonneg A hA _ hfr
  have hreach : len ≤ stepTime A (A.double (1 / A.double p_options.frame_rate)) len (0 + 1) := by
    show len ≤ A.double (len + A.double (1 / A.double p_options.frame_rate))
    have := hA.double_mono len (len + A.double (1 / A.double p_options.frame_rate))
      (by linarith)
    rwa [hrep] at this
  have hrun := renderLoop_run A lottie width height
    (A.double (1 / A.double p_options.frame_rate)) len 0 len [] fuel
    (fun j h1 h0 => absurd h1 (by omega)) hreach (by omega)
  unfold renderTrack
  simp only [hfr.ne', hnz, or_self, if_false, ← hlen, hfin, hs]
  rw [if_neg (by simp), hrun]
  simp [closedFrames, List.range_succ, stepTime]

/-- C3 (as amended). Sampler minimal case: whenever the clamped start time equals
`length` (as it does when `start_time ≥ length`, and for a zero-length animation), the
render loop renders and appends exactly two frames, both at timestamp `length`.  This
holds in the arithmetic of the code and in exact arithmetic. -/
theorem C3_minimal_case (A : Arith) (hA : A.Sound) (lottie : Animation) (width height : ℕ)
    (p_options : Options) (hfr : 0 < A.double p_options.frame_rate)
    (hnz : A.double lottie.frameRate ≠ 0)
    (hfin : A.isFinite (A.double (A.double lottie.totalFrame / A.double lottie.frameRate))
      = true)
    (hs : CLAMP (A.double p_options.start_time) 0
        (A.double (A.double lottie.totalFrame / A.double lottie.frameRate))
      = A.double (A.double lottie.totalFrame / A.double lottie.frameRate)) :
    (∃ N, ∀ fuel, N ≤ fuel → ∃ frames,
      renderTrack A lottie width height p_options fuel = some frames ∧
      frames.length = 2 ∧
      frames.map RenderedFrame.time
        = [A.double (A.double lottie.totalFrame / A.double lottie.frameRate),
            A.double (A.double lottie.totalFrame / A.double lottie.frameRate)]) ∧
    (∀ start length : ℚ, 0 ≤ length → (length ≤ start ∨ length = 0) →
      CLAMP start 0 length = length) := by
  constructor
  · refine ⟨2, fun fuel hfuel =>
      ⟨_, minimal_run A hA lottie width height p_options hfr hnz hfin hs fuel hfuel, rfl, rfl⟩⟩
  · intro start length h0 h
    rw [CLAMP_eq_max_min _ _ h0]
    rcases h with h | h
    · rw [min_eq_right h, max_eq_right h0]
    · subst h
      rcases le_total start 0 with h1 | h1
      · rw [min_eq_left h1, max_eq_left h1]
      · rw [min_eq_right h1, max_eq_left (le_refl _)]

/-- The minimal case in the arithmetic of the code, on a 3 second animation with start
time 5, and in exact arithmetic on the same input. -/
theorem C3_minimal_case_witness :
    (∃ N, ∀ fuel, N ≤ fuel → ∃ frames,
      renderTrack ieee ⟨1, 1, 90, 30, fun _ _ _ _ => 0⟩ 1 1
        ⟨false, 5, 15, ⟨1, 1⟩, true, true, 0⟩ fuel = some frames ∧
      frames.length = 2 ∧ frames.map RenderedFrame.time = [3, 3]) ∧
    (∃ N, ∀ fuel, N ≤ fuel → ∃ frames,
      renderTrack exactArith ⟨1, 1, 90, 30, fun _ _ _ _ => 0⟩ 1 1
        ⟨false, 5, 15, ⟨1, 1⟩, true, true, 0⟩ fuel = some frames ∧
      frames.length = 2 ∧ frames.map RenderedFrame.time = [90 / 30, 90 / 30]) := by
  have h3 : ieee.double (ieee.double 90 / ieee.double 30) = 3 := by decide!
  constructor
  · have key := (C3_minimal_case ieee ieee_sound ⟨1, 1, 90, 30, fun _ _ _ _ => 0⟩ 1 1
      ⟨false, 5, 15, ⟨1, 1⟩, true, true, 0⟩ (by decide!) (by decide!) (by decide!)
      (by decide!)).1
    simp only [h3] at key
    exact key
  · exact (C3_minimal_case exactArith exactArith_sound ⟨1, 1, 90, 30, fun _ _ _ _ => 0⟩ 1 1
      ⟨false, 5, 15, ⟨1, 1⟩, true, true, 0⟩ (by norm_num) (by norm_num) rfl
      (by norm_num [CLAMP])).1

/-- C3 as stated fails: in the arithmetic of the code, with start time 5 on a 3 second
animation the clamped start equals the length and the loop appends two frames, not
one. -/
theorem C3_counterexample :
    CLAMP (ieee.double 5) 0 (ieee.double (ieee.double 90 / ieee.double 30))
      = ieee.double (ieee.double 90 / ieee.double 30) ∧
    ∃ frames,
      renderTrack ieee ⟨1, 1, 90, 30, fun _ _ _ _ => 0⟩ 1 1
        ⟨false, 5, 15, ⟨1, 1⟩, true, true, 0⟩ 2 = some frames ∧
      frames.map RenderedFrame.time = [3, 3] ∧ frames.length ≠ 1 := by
  have h3 : ieee.double (ieee.double 90 / ieee.double 30) = 3 := by decide!
  refine ⟨by decide!, _, minimal_run ieee ieee_sound ⟨1, 1, 90, 30, fun _ _ _ _ => 0⟩ 1 1
    ⟨false, 5, 15, ⟨1, 1⟩, true, true, 0⟩ (by decide!) (by decide!) (by decide!)
    (by decide!) 2 (le_refl 2), ?_, by simp⟩
  simp only [List.map_cons, List.map_nil, renderFrame_time, h3]

/-! ## Scenario A -/

theorem ieee_double_15 : ieee.double 15 = 15 := by decide!

theorem ieee_double_30 : ieee.double 30 = 30 := by decide!

theorem ieee_double_90 : ieee.double 90 = 90 := by decide!

theorem ieee_double_0 : ieee.double 0 = 0 := by decide!

theorem ieee_double_3 : ieee.double 3 = 3 := by decide!

theorem ieee_increment_15 : ieee.double (1 / 15) = 4803839602528529 / 72057594037927936 := by decide!

theorem scenarioA_steps :
    stepsOk ieee (4803839602528529 / 72057594037927936) 3 0 scenarioATimes = true := by decide!

theorem scenarioA_indices :
    (0 :: scenarioATimes ++ [3]).map (fun t : ℚ => ⌊ieee.double (t * 30)⌋)
      = [0, 2, 4, 6, 8, 10, 11, 13, 16, 18, 20, 22, 23, 25, 27, 29, 32, 34, 36, 38, 40, 42, 44,
          46, 47, 49, 51, 53, 55, 57, 59, 61, 64, 66, 68, 70, 72, 74, 76, 78, 80, 82, 84, 86,
          88, 90] := by decide!

theorem scenarioA_near :
    ∀ k : ℕ, k < 45 → |(0 :: scenarioATimes).getD k 0 - (k : ℚ) / 15| < 1 / 2 ^ 48 := by
  decide!

/-- Scenario A in the arithmetic of the code: 90 frames at 30 frames a second, sampled
from 0 at 15 frames a second, for any surface size and rasteriser. -/
theorem scenarioA_ieee_run (width height : ℕ) (render : ℤ → ℕ → ℕ → ℕ → ℕ) (w h : ℕ)
    (threeD animation_import begin_playing : Bool) (scale : Vector2) (start_frame : ℤ)
    (fuel : ℕ) :
    renderTrack ieee ⟨width, height, 90, 30, render⟩ w h
        ⟨threeD, 0, 15, scale, animation_import, begin_playing, start_frame⟩ (46 + fuel)
      = some ((0 :: scenarioATimes).map (renderFrame ieee ⟨width, height, 90, 30, render⟩ w h)
          ++ [renderFrame ieee ⟨width, height, 90, 30, render⟩ w h 3]) := by
  have hlen : ieee.double ((90 : ℚ) / 30) = 3 := by decide!
  have hfin : ieee.isFinite 3 = true := by decide!
  have hs : CLAMP 0 0 (3 : ℚ) = 0 := by norm_num [CLAMP]
  have hrun := stepsOk_run ieee ⟨width, height, 90, 30, render⟩ w h
    (4803839602528529 / 72057594037927936) 3 scenarioATimes 0 [] (46 + fuel)
    scenarioA_steps (by simp [scenarioATimes])
  unfold renderTrack
  simp only [ieee_double_15, ieee_double_30, ieee_double_90, ieee_double_0,
    ieee_increment_15, hlen, hfin, hs]
  rw [if_neg (by norm_num), if_neg (by simp), hrun]
  simp

/-- Scenario A in exact arithmetic, for any surface size and rasteriser. -/
theorem scenarioA_exact_run (width height : ℕ) (render : ℤ → ℕ → ℕ → ℕ → ℕ) (w h : ℕ)
    (threeD animation_import begin_playing : Bool) (scale : Vector2) (start_frame : ℤ)
    (fuel : ℕ) :
    renderTrack exactArith ⟨width, height, 90, 30, render⟩ w h
        ⟨threeD, 0, 15, scale, animation_import, begin_playing, start_frame⟩ (46 + fuel)
      = some (closedFrames exactArith ⟨width, height, 90, 30, render⟩ w h (1 / 15) 3 0 45) := by
  have hlen : ((90 : ℚ) / 30) = 3 := by norm_num
  have hs : CLAMP 0 0 (3 : ℚ) = 0 := by norm_num [CLAMP]
  have hc : stepCount 0 3 15 = 45 := by
    simp only [stepCount]
    norm_num
    rfl
  have hrun := renderTrack_exact ⟨width, height, 90, 30, render⟩ w h
    ⟨threeD, 0, 15, scale, animation_import, begin_playing, start_frame⟩
    (by norm_num) (by norm_num) (46 + fuel)
  simp only [hlen, hs, hc] at hrun
  exact hrun (by omega)

theorem scenarioA_exact_times (lottie : Animation) (w h : ℕ) :
    (closedFrames exactArith lottie w h (1 / 15) 3 0 45).map RenderedFrame.time
      = (List.range 45).map (fun k : ℕ => (k : ℚ) / 15) ++ [3] := by
  rw [closedFrames_times_exact]
  congr 1
  apply List.map_congr_left
  intro k _
  ring

theorem scenarioA_ieee_times (lottie : Animation) (w h : ℕ) :
    ((0 :: scenarioATimes).map (renderFrame ieee lottie w h)
        ++ [renderFrame ieee lottie w h 3]).map RenderedFrame.time
      = 0 :: scenarioATimes ++ [3] := by
  simp [Function.comp_def]

/-- C4 (as amended). Scenario A: for native frame rate 30 and 90 frames (3 s), frame rate
15 and start time 0, the render loop renders exactly 46 timestamps: 0, then the 44
running `double` sums of the increment `1.0 / 15`, each within `2^-48` of `k / 15`, then
a final timestamp pinned to 3; the frame numbers rendered are those listed.  When
arithmetic is taken exactly the timestamps are `k / 15` for `k = 0 .. 44`, then 3. -/
theorem C4_scenario_A (width height : ℕ) (render : ℤ → ℕ → ℕ → ℕ → ℕ) (w h : ℕ)
    (threeD animation_import begin_playing : Bool) (scale : Vector2) (start_frame : ℤ)
    (fuel : ℕ) :
    (∃ frames,
      renderTrack ieee ⟨width, height, 90, 30, render⟩ w h
        ⟨threeD, 0, 15, scale, animation_import, begin_playing, start_frame⟩ (46 + fuel)
        = some frames ∧
      frames.length = 46 ∧
      frames.map RenderedFrame.time = 0 :: scenarioATimes ++ [3] ∧
      (∀ k : ℕ, k < 45 →
        |(frames.map RenderedFrame.time).getD k 0 - (k : ℚ) / 15| < 1 / 2 ^ 48) ∧
      (frames.map RenderedFrame.time).getD 45 0 = 3 ∧
      frames.map RenderedFrame.original_frame
        = [0, 2, 4, 6, 8, 10, 11, 13, 16, 18, 20, 22, 23, 25, 27, 29, 32, 34, 36, 38, 40, 42, 44,
          46, 47, 49, 51, 53, 55, 57, 59, 61, 64, 66, 68, 70, 72, 74, 76, 78, 80, 82, 84, 86,
          88, 90]) ∧
    (∃ frames,
      renderTrack exactArith ⟨width, height, 90, 30, render⟩ w h
        ⟨threeD, 0, 15, scale, animation_import, begin_playing, start_frame⟩ (46 + fuel)
        = some frames ∧
      frames.length = 46 ∧
      frames.map RenderedFrame.time
        = (List.range 45).map (fun k : ℕ => (k : ℚ) / 15) ++ [3]) := by
  constructor
  · refine ⟨_, scenarioA_ieee_run width height render w h threeD animation_import
      begin_playing scale start_frame fuel, ?_, scenarioA_ieee_times _ _ _, ?_, ?_, ?_⟩
    · simp [scenarioATimes]
    · intro k hk
      rw [scenarioA_ieee_times]
      have := scenarioA_near k hk
      rwa [List.getD_append _ _ _ _ (by simpa [scenarioATimes] using hk)]
    · rw [scenarioA_ieee_times]
      simp [scenarioATimes]
    · have := scenarioA_indices
      rw [← this]
      simp [Function.comp_def, ieee_double_30]
  · exact ⟨_, scenarioA_exact_run width height render w h threeD animation_import
      begin_playing scale start_frame fuel, closedFrames_length _ _ _ _ _ _ _ _,
      scenarioA_exact_times _ _ _⟩

/-- C4 as stated fails: in scenario A the code renders 46 timestamps, not the 16
timestamps `0, 1/15, ..., 14/15, 3`, and the timestamps are rounded sums: the seventh is
below `6 / 15`. -/
theorem C4_counterexample :
    ∃ frames,
      renderTrack ieee ⟨1, 1, 90, 30, fun _ _ _ _ => 0⟩ 1 1
        ⟨false, 0, 15, ⟨1, 1⟩, true, true, 0⟩ 46 = some frames ∧
      (frames.map RenderedFrame.time).length = 46 ∧
      frames.map RenderedFrame.time
        ≠ (List.range 15).map (fun k : ℕ => (k : ℚ) / 15) ++ [3] ∧
      (frames.map RenderedFrame.time).getD 6 0 < 6 / 15 := by
  refine ⟨_, scenarioA_ieee_run 1 1 (fun _ _ _ _ => 0) 1 1 false true true ⟨1, 1⟩ 0 0,
    ?_, ?_, ?_⟩
  · rw [scenarioA_ieee_times]
    simp [scenarioATimes]
  · intro hne
    have := congrArg List.length hne
    rw [scenarioA_ieee_times] at this
    simp [scenarioATimes] at this
  · rw [scenarioA_ieee_times]
    simp only [scenarioATimes, List.cons_append, List.getD_cons_succ, List.getD_cons_zero]
    norm_num

/-! ## Order and spacing of the timestamps -/

/-- The stepped times of a sound arithmetic are rounded values. -/
theorem stepTime_rounded (A : Arith) (hA : A.Sound) (increment start : ℚ)
    (hstart : A.double start = start) :
    ∀ k : ℕ, A.double (stepTime A increment start k) = stepTime A increment start k
  | 0 => hstart
  | _ + 1 => hA.double_idem _

theorem stepTime_le_succ (A : Arith) (hA : A.Sound) (increment start : ℚ)
    (hinc : 0 ≤ increment) (hstart : A.double start = start) (k : ℕ) :
    stepTime A increment start k ≤ stepTime A increment start (k + 1) := by
  have := hA.double_mono (stepTime A increment start k)
    (stepTime A increment start k + increment) (by linarith)
  rwa [stepTime_rounded A hA increment start hstart k] at this

theorem stepTime_mono (A : Arith) (hA : A.Sound) (increment start : ℚ)
    (hinc : 0 ≤ increment) (hstart : A.double start = start) (a b : ℕ) (hab : a ≤ b) :
    stepTime A increment start a ≤ stepTime A increment start b := by
  induction b with
  | zero =>
    have : a = 0 := by omega
    rw [this]
  | succ b ih =>
    rcases Nat.eq_or_lt_of_le hab with h | h
    · rw [h]
    · exact le_trans (ih (by omega)) (stepTime_le_succ A hA increment start hinc hstart b)

/-- A step that does not move the time is repeated for ever. -/
theorem stepTime_stuck (A : Arith) (increment start : ℚ) (k : ℕ)
    (h : stepTime A increment start (k + 1) = stepTime A increment start k) :
    ∀ j : ℕ, stepTime A increment start (k + j) = stepTime A increment start k
  | 0 => rfl
  | j + 1 => by
    show A.double (stepTime A increment start (k + j) + increment) = _
    rw [stepTime_stuck A increment start k h j]
    exact h

/-- In a finished run whose start is below `length` every step moves the time forward. -/
theorem stepTime_lt_succ (A : Arith) (hA : A.Sound) (increment length start : ℚ)
    (hinc : 0 ≤ increment) (hstart : A.double start = start) (m : ℕ)
    (hs : start < length)
    (hbelow : ∀ j : ℕ, 1 ≤ j → j ≤ m → stepTime A increment start j < length)
    (hreach : length ≤ stepTime A increment start (m + 1)) (k : ℕ) (hk : k ≤ m) :
    stepTime A increment start k < stepTime A increment start (k + 1) := by
  refine lt_of_le_of_ne (stepTime_le_succ A hA increment start hinc hstart k) ?_
  intro heq
  have hstuck := stepTime_stuck A increment start k heq.symm (m + 1 - k)
  rw [show k + (m + 1 - k) = m + 1 by omega] at hstuck
  have hlt : stepTime A increment start k < length := by
    rcases Nat.eq_zero_or_pos k with h0 | hpos
    · rw [h0]; exact hs
    · exact hbelow k hpos hk
  rw [hstuck] at hreach
  exact absurd hreach (not_le.mpr hlt)

theorem stepTime_strictMono (A : Arith) (hA : A.Sound) (increment length start : ℚ)
    (hinc : 0 ≤ increment) (hstart : A.double start = start) (m : ℕ)
    (hs : start < length)
    (hbelow : ∀ j : ℕ, 1 ≤ j → j ≤ m → stepTime A increment start j < length)
    (hreach : length ≤ stepTime A increment start (m + 1)) (a b : ℕ) (hab : a < b)
    (hb : b ≤ m + 1) :
    stepTime A increment start a < stepTime A increment start b :=
  lt_of_lt_of_le
    (stepTime_lt_succ A hA increment length start hinc hstart m hs hbelow hreach a (by omega))
    (stepTime_mono A hA increment start hinc hstart (a + 1) b (by omega))

/-- The order and the spacing of the timestamps of a finished run. -/
theorem finished_times (A : Arith) (hA : A.Sound) (increment length start : ℚ)
    (hinc : 0 ≤ increment) (hstart : A.double start = start) (hsl : start ≤ length) (m : ℕ)
    (hbelow : ∀ j : ℕ, 1 ≤ j → j ≤ m → stepTime A increment start j < length)
    (hreach : length ≤ stepTime A increment start (m + 1)) :
    ((List.range (m + 1)).map (stepTime A increment start) ++ [length]).Pairwise (· ≤ ·) ∧
    (start < length →
      ((List.range (m + 1)).map (stepTime A increment start) ++ [length]).Pairwise
        (· < ·)) ∧
    ∀ (i : ℕ) (a b : ℚ),
      ((List.range (m + 1)).map (stepTime A increment start) ++ [length])[i]? = some a →
      ((List.range (m + 1)).map (stepTime A increment start) ++ [length])[i + 1]? = some b →
      (i + 2 < ((List.range (m + 1)).map (stepTime A increment start) ++ [length]).length →
        b = A.double (a + increment)) ∧
      b ≤ A.double (a + increment) := by
  have hle : ∀ k, k ≤ m → stepTime A increment start k ≤ length := by
    intro k hk
    rcases Nat.eq_zero_or_pos k with h0 | hpos
    · rw [h0]; exact hsl
    · exact (hbelow k hpos hk).le
  refine ⟨?_, ?_, ?_⟩
  · rw [List.pairwise_append, List.pairwise_map]
    refine ⟨(List.pairwise_lt_range _).imp ?_, List.pairwise_singleton _ _, ?_⟩
    · intro a b hab
      exact stepTime_mono A hA increment start hinc hstart a b hab.le
    · intro a ha b hb
      obtain ⟨k, hk, rfl⟩ := List.mem_map.mp ha
      rw [List.mem_singleton.mp hb]
      exact hle k (by have := List.mem_range.mp hk; omega)
  · intro hs
    rw [List.pairwise_append, List.pairwise_map]
    refine ⟨(List.pairwise_lt_range _).imp_of_mem ?_, List.pairwise_singleton _ _, ?_⟩
    · intro a b _ hb hab
      exact stepTime_strictMono A hA increment length start hinc hstart m hs hbelow hreach
        a b hab (by have := List.mem_range.mp hb; omega)
    · intro a ha b hb
      obtain ⟨k, hk, rfl⟩ := List.mem_map.mp ha
      rw [List.mem_singleton.mp hb]
      have hk' : k ≤ m := by have := List.mem_range.mp hk; omega
      rcases Nat.eq_zero_or_pos k with h0 | hpos
      · rw [h0]; exact hs
      · exact hbelow k hpos hk'
  · intro i a b ha hb
    have hlen : ((List.range (m + 1)).map (stepTime A increment start) ++ [length]).length
        = m + 2 := by simp
    have hi : i + 1 < m + 2 := by
      have := (List.getElem?_eq_some.mp hb).1
      rwa [hlen] at this
    have ha' : a = stepTime A increment start i := by
      rw [List.getElem?_append_left (by simp; omega), List.getElem?_map,
        List.getElem?_range (by omega)] at ha
      exact (Option.some.inj ha).symm
    rw [hlen]
    rcases Nat.lt_or_ge (i + 1) (m + 1) with h | h
    · have hb' : b = stepTime A increment start (i + 1) := by
        rw [List.getElem?_append_left (by simp; omega), List.getElem?_map,
          List.getElem?_range h] at hb
        exact (Option.some.inj hb).symm
      have : b = A.double (a + increment) := by rw [ha', hb']; rfl
      exact ⟨fun _ => this, this.le⟩
    · have him : i = m := by omega
      have hb' : b = length := by
        rw [List.getElem?_append_right (by simp; omega)] at hb
        simp [him] at hb
        exact hb.symm
      refine ⟨fun h2 => by omega, ?_⟩
      rw [hb', ha', him]
      exact hreach

/-- What a finished run of the operation's loop looks like. -/
theorem renderTrack_inv (A : Arith) (lottie : Animation) (width height : ℕ)
    (p_options : Options) (fuel : ℕ) (frames : List RenderedFrame)
    (h : renderTrack A lottie width height p_options fuel = some frames) :
    ∃ m : ℕ,
      (∀ j : ℕ, 1 ≤ j → j ≤ m →
        stepTime A (A.double (1 / A.double p_options.frame_rate))
          (CLAMP (A.double p_options.start_time) 0
            (A.double (A.double lottie.totalFrame / A.double lottie.frameRate))) j
          < A.double (A.double lottie.totalFrame / A.double lottie.frameRate)) ∧
      A.double (A.double lottie.totalFrame / A.double lottie.frameRate)
        ≤ stepTime A (A.double (1 / A.double p_options.frame_rate))
          (CLAMP (A.double p_options.start_time) 0
            (A.double (A.double lottie.totalFrame / A.double lottie.frameRate))) (m + 1) ∧
      frames = closedFrames A lottie width height
        (A.double (1 / A.double p_options.frame_rate))
        (A.double (A.double lottie.totalFrame / A.double lottie.frameRate))
        (CLAMP (A.double p_options.start_time) 0
          (A.double (A.double lottie.totalFrame / A.double lottie.frameRate))) (m + 1) := by
  unfold renderTrack at h
  simp only [] at h
  split_ifs at h with h1 h2
  obtain ⟨m, hb, hr, hf⟩ := renderLoop_inv A lottie width height _ _ fuel _ [] frames h
  exact ⟨m, hb, hr, by simpa using hf⟩

/-- The clamped start of a sound arithmetic is a rounded value between 0 and a
non-negative length. -/
theorem clamp_rounded (A : Arith) (hA : A.Sound) (start x : ℚ) (hlen : 0 ≤ A.double x) :
    A.double (CLAMP (A.double start) 0 (A.double x)) = CLAMP (A.double start) 0 (A.double x) ∧
    0 ≤ CLAMP (A.double start) 0 (A.double x) ∧
    CLAMP (A.double start) 0 (A.double x) ≤ A.double x := by
  refine ⟨?_, CLAMP_nonneg _ _ hlen, CLAMP_le _ _ hlen⟩
  unfold CLAMP
  split_ifs
  · exact hA.double_zero
  · exact hA.double_idem _
  · exact hA.double_idem _

theorem closedTimes_length (increment length start : ℚ) (count : ℕ) :
    (closedTimes increment length start count).length = count + 1 := by
  simp [closedTimes]

theorem closedTimes_getElem?_lt (increment length start : ℚ) (count i : ℕ) (hi : i < count) :
    (closedTimes increment length start count)[i]? = some (start + (i : ℚ) * increment) := by
  unfold closedTimes
  rw [List.getElem?_append_left (by simpa using hi), List.getElem?_map,
    List.getElem?_range hi]
  rfl

theorem closedTimes_getElem?_last (increment length start : ℚ) (count : ℕ) :
    (closedTimes increment length start count)[count]? = some length := by
  unfold closedTimes
  rw [List.getElem?_append_right (by simp)]
  simp

/-- Every stepped time of the sampler is at most `length`, and below it when the start
is. -/
theorem step_le (start length frame_rate : ℚ) (hfr : 0 < frame_rate) (hs : start ≤ length)
    (k : ℕ) (hk : k < stepCount start length frame_rate) :
    start + (k : ℚ) * (1 / frame_rate) ≤ length ∧
    (start < length → start + (k : ℚ) * (1 / frame_rate) < length) := by
  rcases Nat.eq_zero_or_pos k with h0 | hpos
  · subst h0
    simp [hs]
  · have := step_below start length frame_rate hfr k hpos hk
    exact ⟨this.le, fun _ => this⟩

theorem closedTimes_pairwise (start length frame_rate : ℚ) (hfr : 0 < frame_rate)
    (hs : start ≤ length) :
    (closedTimes (1 / frame_rate) length start (stepCount start length frame_rate)).Pairwise
      (· ≤ ·) ∧
    (start < length →
      (closedTimes (1 / frame_rate) length start (stepCount start length frame_rate)).Pairwise
        (· < ·)) := by
  have hinc : 0 < 1 / frame_rate := one_div_pos.mpr hfr
  have hstrict : (List.range (stepCount start length frame_rate)).Pairwise
      (fun a b : ℕ => start + (a : ℚ) * (1 / frame_rate) < start + (b : ℚ) * (1 / frame_rate)) := by
    refine (List.pairwise_lt_range _).imp ?_
    intro a b hab
    have : (a : ℚ) < (b : ℚ) := by exact_mod_cast hab
    have := mul_lt_mul_of_pos_right this hinc
    linarith
  constructor
  · unfold closedTimes
    rw [List.pairwise_append, List.pairwise_map]
    refine ⟨hstrict.imp (fun h => h.le), List.pairwise_singleton _ _, ?_⟩
    intro a ha b hb
    obtain ⟨k, hk, rfl⟩ := List.mem_map.mp ha
    rw [List.mem_singleton.mp hb]
    exact (step_le start length frame_rate hfr hs k (List.mem_range.mp hk)).1
  · intro hlt
    unfold closedTimes
    rw [List.pairwise_append, List.pairwise_map]
    refine ⟨hstrict, List.pairwise_singleton _ _, ?_⟩
    intro a ha b hb
    obtain ⟨k, hk, rfl⟩ := List.mem_map.mp ha
    rw [List.mem_singleton.mp hb]
    exact (step_le start length frame_rate hfr hs k (List.mem_range.mp hk)).2 hlt

/-- Consecutive timestamps of the closed form differ by the increment, except that the
step to the final `length` may be shorter. -/
theorem closedTimes_gap (start length frame_rate : ℚ) (hfr : 0 < frame_rate) (i : ℕ)
    (a b : ℚ)
    (ha : (closedTimes (1 / frame_rate) length start (stepCount start length frame_rate))[i]?
      = some a)
    (hb : (closedTimes (1 / frame_rate) length start
      (stepCount start length frame_rate))[i + 1]? = some b) :
    (i + 2 < (closedTimes (1 / frame_rate) length start
        (stepCount start length frame_rate)).length → b - a = 1 / frame_rate) ∧
    b - a ≤ 1 / frame_rate := by
  set n := stepCount start length frame_rate with hn
  have hi : i + 1 < n + 1 := by
    have := (List.getElem?_eq_some.mp hb).1
    rwa [closedTimes_length] at this
  have hin : i < n := by omega
  rw [closedTimes_getElem?_lt _ _ _ _ _ hin] at ha
  have ha := (Option.some.inj ha).symm
  rw [closedTimes_length]
  rcases Nat.lt_or_ge (i + 1) n with h | h
  · rw [closedTimes_getElem?_lt _ _ _ _ _ h] at hb
    have hb := (Option.some.inj hb).symm
    have : b - a = 1 / frame_rate := by
      rw [ha, hb]; push_cast; ring
    exact ⟨fun _ => this, this.le⟩
  · have hn1 : i + 1 = n := by omega
    rw [hn1, closedTimes_getElem?_last] at hb
    have hb := (Option.some.inj hb).symm
    refine ⟨fun h2 => by omega, ?_⟩
    have hr := step_reach start length frame_rate hfr
    rw [← hn, ← hn1] at hr
    push_cast at hr
    rw [ha, hb]
    linarith

/-- C2 (as amended). Sampler monotonicity: for every start time, positive frame rate and
`length ≥ 0`, the timestamps rendered by a finished run of the loop, in the order the
frames are appended, never decrease and are strictly increasing whenever the clamped
start is below `length`; each timestamp before the last is the `double` sum of its
predecessor and the increment `1.0 / frame_rate`, and the last is at most that sum.  In
exact arithmetic the loop always finishes, every consecutive gap equals `1 / frame_rate`
except possibly the last, and the last gap is at most `1 / frame_rate`. -/
theorem C2_sampler_monotone (A : Arith) (hA : A.Sound) (lottie : Animation)
    (width height : ℕ) (p_options : Options) (hfr : 0 < A.double p_options.frame_rate)
    (hlen : 0 ≤ A.double (A.double lottie.totalFrame / A.double lottie.frameRate)) :
    (∀ fuel frames, renderTrack A lottie width height p_options fuel = some frames →
      (frames.map RenderedFrame.time).Pairwise (· ≤ ·) ∧
      (CLAMP (A.double p_options.start_time) 0
          (A.double (A.double lottie.totalFrame / A.double lottie.frameRate))
          < A.double (A.double lottie.totalFrame / A.double lottie.frameRate) →
        (frames.map RenderedFrame.time).Pairwise (· < ·)) ∧
      ∀ (i : ℕ) (a b : ℚ), (frames.map RenderedFrame.time)[i]? = some a →
        (frames.map RenderedFrame.time)[i + 1]? = some b →
        (i + 2 < (frames.map RenderedFrame.time).length →
          b = A.double (a + A.double (1 / A.double p_options.frame_rate))) ∧
        b ≤ A.double (a + A.double (1 / A.double p_options.frame_rate))) ∧
    (0 < p_options.frame_rate → lottie.frameRate ≠ 0 →
      0 ≤ lottie.totalFrame / lottie.frameRate →
      ∃ N, ∀ fuel, N ≤ fuel → ∃ frames,
        renderTrack exactArith lottie width height p_options fuel = some frames ∧
        (frames.map RenderedFrame.time).Pairwise (· ≤ ·) ∧
        (max 0 (min p_options.start_time (lottie.totalFrame / lottie.frameRate))
            < lottie.totalFrame / lottie.frameRate →
          (frames.map RenderedFrame.time).Pairwise (· < ·)) ∧
        ∀ (i : ℕ) (a b : ℚ), (frames.map RenderedFrame.time)[i]? = some a →
          (frames.map RenderedFrame.time)[i + 1]? = some b →
          (i + 2 < (frames.map RenderedFrame.time).length →
            b - a = 1 / p_options.frame_rate) ∧
          b - a ≤ 1 / p_options.frame_rate) := by
  constructor
  · intro fuel frames hrun
    obtain ⟨m, hbelow, hreach, rfl⟩ := renderTrack_inv A lottie width height p_options fuel
      frames hrun
    obtain ⟨hrep, _, hsl⟩ := clamp_rounded A hA p_options.start_time
      (A.double lottie.totalFrame / A.double lottie.frameRate) hlen
    rw [closedFrames_times]
    exact finished_times A hA _ _ _ (increment_nonneg A hA _ hfr) hrep hsl m hbelow hreach
  · intro hfr' hnz hlen'
    refine ⟨_, fun fuel hfuel =>
      ⟨_, renderTrack_exact lottie width height p_options hfr' hnz fuel hfuel, ?_⟩⟩
    rw [closedFrames_times_exact, ← CLAMP_eq_max_min _ _ hlen']
    have hp := closedTimes_pairwise (CLAMP p_options.start_time 0
      (lottie.totalFrame / lottie.frameRate)) (lottie.totalFrame / lottie.frameRate)
      p_options.frame_rate hfr' (CLAMP_le _ _ hlen')
    exact ⟨hp.1, hp.2, fun i a b ha hb => closedTimes_gap _ _ _ hfr' i a b ha hb⟩

/-- The run of the code on 12 frames at 30 frames a second sampled from 0 at 10 frames a
second: the timestamps are the doubles 0, 0.1, 0.2, 0.30000000000000004 and 0.4. -/
theorem tenth_run :
    renderTrack ieee ⟨1, 1, 12, 30, fun _ _ _ _ => 0⟩ 1 1
        ⟨false, 0, 10, ⟨1, 1⟩, true, true, 0⟩ 5
      = some (([0, 3602879701896397 / 36028797018963968,
            3602879701896397 / 18014398509481984,
            1351079888211149 / 4503599627370496] : List ℚ).map
          (renderFrame ieee ⟨1, 1, 12, 30, fun _ _ _ _ => 0⟩ 1 1)
        ++ [renderFrame ieee ⟨1, 1, 12, 30, fun _ _ _ _ => 0⟩ 1 1
            (3602879701896397 / 9007199254740992)]) := by
  have h10 : ieee.double 10 = 10 := by decide!
  have h12 : ieee.double 12 = 12 := by decide!
  have hinc : ieee.double (1 / 10) = 3602879701896397 / 36028797018963968 := by decide!
  have hlen : ieee.double ((12 : ℚ) / 30) = 3602879701896397 / 9007199254740992 := by decide!
  have hfin : ieee.isFinite (3602879701896397 / 9007199254740992) = true := by decide!
  have hs : CLAMP 0 0 (3602879701896397 / 9007199254740992 : ℚ) = 0 := by norm_num [CLAMP]
  have hok : stepsOk ieee (3602879701896397 / 36028797018963968)
      (3602879701896397 / 9007199254740992) 0
      [3602879701896397 / 36028797018963968, 3602879701896397 / 18014398509481984,
        1351079888211149 / 4503599627370496] = true := by decide!
  have hrun := stepsOk_run ieee ⟨1, 1, 12, 30, fun _ _ _ _ => 0⟩ 1 1
    (3602879701896397 / 36028797018963968) (3602879701896397 / 9007199254740992) _ 0 [] 5
    hok (by simp)
  unfold renderTrack
  simp only [h10, h12, ieee_double_30, ieee_double_0, hinc, hlen, hfin, hs]
  rw [if_neg (by norm_num), if_neg (by simp), hrun]
  simp

theorem tenth_times :
    ((([0, 3602879701896397 / 36028797018963968,
            3602879701896397 / 18014398509481984,
            1351079888211149 / 4503599627370496] : List ℚ).map
          (renderFrame ieee ⟨1, 1, 12, 30, fun _ _ _ _ => 0⟩ 1 1)
        ++ [renderFrame ieee ⟨1, 1, 12, 30, fun _ _ _ _ => 0⟩ 1 1
            (3602879701896397 / 9007199254740992)]).map RenderedFrame.time)
      = [0, 3602879701896397 / 36028797018963968, 3602879701896397 / 18014398509481984,
          1351079888211149 / 4503599627370496, 3602879701896397 / 9007199254740992] := by
  simp

/-- The monotonicity in the arithmetic of the code, on 12 frames at 30 frames a second
sampled from 0 at 10 frames a second. -/
theorem C2_sampler_monotone_witness :
    ∃ frames,
      renderTrack ieee ⟨1, 1, 12, 30, fun _ _ _ _ => 0⟩ 1 1
        ⟨false, 0, 10, ⟨1, 1⟩, true, true, 0⟩ 5 = some frames ∧
      frames.length = 5 ∧
      (frames.map RenderedFrame.time).Pairwise (· ≤ ·) ∧
      (frames.map RenderedFrame.time).Pairwise (· < ·) := by
  have key := (C2_sampler_monotone ieee ieee_sound ⟨1, 1, 12, 30, fun _ _ _ _ => 0⟩ 1 1
    ⟨false, 0, 10, ⟨1, 1⟩, true, true, 0⟩ (by decide!) (by decide!)).1 5 _ tenth_run
  exact ⟨_, tenth_run, by simp, key.1, key.2.1 (by decide!)⟩

/-- C2 as stated fails in the code on two counts.  On a zero-length animation the loop
renders the timestamps 0 and 0, which do not increase.  On 12 frames at 30 frames a
second sampled at 10 frames a second the gap from the third to the fourth timestamp,
0.2 to 0.30000000000000004, is neither `1 / 10` nor the `double` nearest to it, but
larger. -/
theorem C2_counterexample :
    (∃ frames,
      renderTrack ieee ⟨1, 1, 0, 30, fun _ _ _ _ => 0⟩ 1 1
        ⟨false, 0, 15, ⟨1, 1⟩, true, true, 0⟩ 2 = some frames ∧
      frames.map RenderedFrame.time = [0, 0] ∧
      ¬ (frames.map RenderedFrame.time).Pairwise (· < ·)) ∧
    (∃ frames,
      renderTrack ieee ⟨1, 1, 12, 30, fun _ _ _ _ => 0⟩ 1 1
        ⟨false, 0, 10, ⟨1, 1⟩, true, true, 0⟩ 5 = some frames ∧
      (frames.map RenderedFrame.time).length = 5 ∧
      (frames.map RenderedFrame.time).getD 3 0 - (frames.map RenderedFrame.time).getD 2 0
        ≠ 1 / 10 ∧
      ieee.double (1 / ieee.double 10)
        < (frames.map RenderedFrame.time).getD 3 0
          - (frames.map RenderedFrame.time).getD 2 0) := by
  constructor
  · have h0 : ieee.double (ieee.double 0 / ieee.double 30) = 0 := by decide!
    refine ⟨_, minimal_run ieee ieee_sound ⟨1, 1, 0, 30, fun _ _ _ _ => 0⟩ 1 1
      ⟨false, 0, 15, ⟨1, 1⟩, true, true, 0⟩ (by decide!) (by decide!) (by decide!)
      (by decide!) 2 (le_refl 2), ?_, ?_⟩
    · simp only [List.map_cons, List.map_nil, renderFrame_time, h0]
    · simp only [List.map_cons, List.map_nil, renderFrame_time, h0]
      simp
  · have hinc : ieee.double (1 / ieee.double 10) = 3602879701896397 / 36028797018963968 := by
      decide!
    refine ⟨_, tenth_run, ?_, ?_, ?_⟩
    · rw [tenth_times]; rfl
    · rw [tenth_times]
      simp only [List.getD_cons_succ, List.getD_cons_zero]
      norm_num
    · rw [tenth_times, hinc]
      simp only [List.getD_cons_succ, List.getD_cons_zero]
      norm_num

/-! ## Frame numbers handed to the rasteriser -/

/-- A whole number below `2^53` is a `double`. -/
theorem ieee_double_natCast (n : ℕ) (hn : n < 2 ^ 53) : ieee.double (n : ℚ) = n := by
  apply roundBinary_of_representable
  refine ⟨n, 0, ?_, by norm_num, by simp⟩
  rw [abs_of_nonneg (Int.ofNat_nonneg n)]
  exact_mod_cast hn

/-- A whole number below `2^52` plus one half is a `double`. -/
theorem ieee_double_half (n : ℕ) (hn : n < 2 ^ 52) :
    ieee.double ((n : ℚ) + 1 / 2) = (n : ℚ) + 1 / 2 := by
  apply roundBinary_of_representable
  refine ⟨2 * n + 1, -1, ?_, by norm_num, ?_⟩
  · rw [abs_of_nonneg (by positivity)]
    have : (2 * n + 1 : ℕ) < 2 ^ 53 := by omega
    exact_mod_cast this
  · push_cast
    rw [zpow_neg_one]
    ring

/-- A positive value rounds to a `double` that exceeds it by at most one part in `2^53`
or, in the subnormal range, by `2^-1075`. -/
theorem ieee_double_le (x : ℚ) (hx : 0 < x) :
    ieee.double x ≤ x + x / 2 ^ 53 + 1 / 2 ^ 1075 := by
  have herr := roundBinary_error 53 (-1074) x
  have hup : ieee.double x - x ≤ (2 : ℚ) ^ (max (binExp x - ((53 : ℕ) - 1 : ℤ)) (-1074)) / 2 :=
    le_trans (le_abs_self _) herr
  obtain ⟨s1, _⟩ := binExp_spec x hx.ne'
  rw [abs_of_pos hx] at s1
  have hq : (2 : ℚ) ^ (max (binExp x - ((53 : ℕ) - 1 : ℤ)) (-1074)) / 2
      ≤ x / 2 ^ 53 + 1 / 2 ^ 1075 := by
    rcases max_cases (binExp x - ((53 : ℕ) - 1 : ℤ)) (-1074) with ⟨h, _⟩ | ⟨h, _⟩
    · rw [h]
      have e1 : (2 : ℚ) ^ (binExp x - ((53 : ℕ) - 1 : ℤ)) = (2 : ℚ) ^ binExp x / 2 ^ 52 := by
        rw [zpow_sub₀ (by norm_num : (2 : ℚ) ≠ 0)]
        norm_num
      rw [e1]
      have : (2 : ℚ) ^ binExp x / 2 ^ 52 / 2 ≤ x / 2 ^ 53 := by
        rw [div_div]
        have h2 : ((2 : ℚ) ^ 52 * 2) = 2 ^ 53 := by norm_num
        rw [h2]
        exact div_le_div_of_nonneg_right s1 (by positivity)
      have hpos : (0 : ℚ) ≤ 1 / 2 ^ 1075 := by positivity
      linarith
    · rw [h]
      have e2 : (2 : ℚ) ^ (-1074 : ℤ) / 2 = 1 / 2 ^ 1075 := by
        rw [zpow_neg, zpow_ofNat, show (2 : ℚ) ^ 1075 = 2 ^ 1074 * 2 from pow_succ 2 1074]
        field_simp
      rw [e2]
      have : (0 : ℚ) ≤ x / 2 ^ 53 := by positivity
      linarith
  linarith

/-- In the arithmetic of the code, for a whole frame count up to `2^51` and a finite
positive native frame rate, the frame number of the final frame is at most the frame
count. -/
theorem ieee_final_index_le (n : ℕ) (hn : n ≤ 2 ^ 51) (native : ℚ) (h0 : 0 < native)
    (hfin : native < 2 ^ 1024) :
    ⌊ieee.double (ieee.double (ieee.double (n : ℚ) / native) * native)⌋ ≤ (n : ℤ) := by
  rw [ieee_double_natCast n (by omega)]
  rcases Nat.eq_zero_or_pos n with hz | hpos
  · subst hz
    have h00 : ieee.double 0 = 0 := roundBinary_zero 53 (-1074)
    simp [h00]
  have hx : (0 : ℚ) < (n : ℚ) / native := div_pos (by exact_mod_cast hpos) h0
  have hlen := ieee_double_le _ hx
  have hlen0 : 0 ≤ ieee.double ((n : ℚ) / native) := roundBinary_nonneg 53 (-1074) _ hx.le
  have hnq : (n : ℚ) ≤ 2 ^ 51 := by exact_mod_cast hn
  have hprod : ieee.double ((n : ℚ) / native) * native ≤ (n : ℚ) + 1 / 2 := by
    have h1 : ieee.double ((n : ℚ) / native) * native
        ≤ ((n : ℚ) / native + (n : ℚ) / native / 2 ^ 53 + 1 / 2 ^ 1075) * native :=
      mul_le_mul_of_nonneg_right hlen h0.le
    have h2 : ((n : ℚ) / native + (n : ℚ) / native / 2 ^ 53 + 1 / 2 ^ 1075) * native
        = (n : ℚ) + (n : ℚ) / 2 ^ 53 + native / 2 ^ 1075 := by
      field_simp
      ring
    have h3 : (n : ℚ) / 2 ^ 53 ≤ 1 / 4 := by
      rw [div_le_iff₀ (by positivity)]
      calc (n : ℚ) ≤ 2 ^ 51 := hnq
        _ = 1 / 4 * 2 ^ 53 := by norm_num
    have h4 : native / 2 ^ 1075 ≤ 1 / 4 := by
      rw [div_le_iff₀ (by positivity)]
      calc native ≤ 2 ^ 1024 := hfin.le
        _ ≤ 1 / 4 * 2 ^ 1075 := by norm_num
    linarith
  have hmono := roundBinary_monotone 53 (by norm_num) (-1074) _ _ hprod
  have hhalf := ieee_double_half n (by omega)
  have hle : ieee.double (ieee.double ((n : ℚ) / native) * native) ≤ (n : ℚ) + 1 / 2 := by
    have : ieee.double (ieee.double ((n : ℚ) / native) * native)
        ≤ ieee.double ((n : ℚ) + 1 / 2) := hmono
    rwa [hhalf] at this
  have hlt : ieee.double (ieee.double ((n : ℚ) / native) * native) < ((n + 1 : ℤ) : ℚ) := by
    push_cast
    linarith
  have := Int.floor_lt.mpr hlt
  omega

/-- The frames of a finished run: each is the loop body at its own time, the time lies
between 0 and `length`, and no frame number exceeds that of the final frame. -/
theorem finished_indices (A : Arith) (hA : A.Sound) (lottie : Animation) (width height : ℕ)
    (p_options : Options) (hfr : 0 < A.double p_options.frame_rate)
    (hnat : 0 < A.double lottie.frameRate)
    (hlen : 0 ≤ A.double (A.double lottie.totalFrame / A.double lottie.frameRate))
    (fuel : ℕ) (frames : List RenderedFrame)
    (hrun : renderTrack A lottie width height p_options fuel = some frames) :
    (∀ f ∈ frames,
      f.original_frame = ⌊A.double (f.time * A.double lottie.frameRate)⌋ ∧
      0 ≤ f.time ∧
      f.time ≤ A.double (A.double lottie.totalFrame / A.double lottie.frameRate) ∧
      0 ≤ f.original_frame ∧
      f.original_frame
        ≤ ⌊A.double (A.double (A.double lottie.totalFrame / A.double lottie.frameRate)
            * A.double lottie.frameRate)⌋) ∧
    ∃ f, frames.getLast? = some f ∧
      f.time = A.double (A.double lottie.totalFrame / A.double lottie.frameRate) ∧
      f.original_frame
        = ⌊A.double (A.double (A.double lottie.totalFrame / A.double lottie.frameRate)
            * A.double lottie.frameRate)⌋ := by
  obtain ⟨m, hbelow, hreach, rfl⟩ := renderTrack_inv A lottie width height p_options fuel
    frames hrun
  obtain ⟨hrep, hs0, hsl⟩ := clamp_rounded A hA p_options.start_time
    (A.double lottie.totalFrame / A.double lottie.frameRate) hlen
  have hinc := increment_nonneg A hA _ hfr
  set len := A.double (A.double lottie.totalFrame / A.double lottie.frameRate) with hlendef
  set s := CLAMP (A.double p_options.start_time) 0 len with hsdef
  set inc := A.double (1 / A.double p_options.frame_rate) with hincdef
  have hbody : ∀ t : ℚ, 0 ≤ t → t ≤ len →
      (renderFrame A lottie width height t).original_frame
          = ⌊A.double ((renderFrame A lottie width height t).time * A.double lottie.frameRate)⌋ ∧
        0 ≤ (renderFrame A lottie width height t).time ∧
        (renderFrame A lottie width height t).time ≤ len ∧
        0 ≤ (renderFrame A lottie width height t).original_frame ∧
        (renderFrame A lottie width height t).original_frame
          ≤ ⌊A.double (len * A.double lottie.frameRate)⌋ := by
    intro t ht0 htl
    refine ⟨rfl, ht0, htl, ?_, ?_⟩
    · rw [renderFrame_original_frame]
      have := hA.double_mono 0 (t * A.double lottie.frameRate) (mul_nonneg ht0 hnat.le)
      rw [hA.double_zero] at this
      exact Int.floor_nonneg.mpr this
    · rw [renderFrame_original_frame]
      exact Int.floor_mono (hA.double_mono _ _ (mul_le_mul_of_nonneg_right htl hnat.le))
  constructor
  · intro f hf
    unfold closedFrames at hf
    rcases List.mem_append.mp hf with h | h
    · obtain ⟨k, hk, rfl⟩ := List.mem_map.mp h
      have hk' : k ≤ m := by have := List.mem_range.mp hk; omega
      apply hbody
      · exact le_trans hs0 (stepTime_mono A hA inc s hinc hrep 0 k (Nat.zero_le k))
      · rcases Nat.eq_zero_or_pos k with h0 | hpos
        · rw [h0]; exact hsl
        · exact (hbelow k hpos hk').le
    · rw [List.mem_singleton.mp h]
      exact hbody len hlen (le_refl _)
  · refine ⟨renderFrame A lottie width height len, ?_, rfl, rfl⟩
    unfold closedFrames
    rw [List.getLast?_append]
    simp

theorem nine_run :
    renderTrack ieee ⟨1, 1, 9, 10, fun _ _ _ _ => 0⟩ 1 1
        ⟨false, 0, 10, ⟨1, 1⟩, true, true, 0⟩ 11
      = some ((0 :: nineTimes).map (renderFrame ieee ⟨1, 1, 9, 10, fun _ _ _ _ => 0⟩ 1 1)
        ++ [renderFrame ieee ⟨1, 1, 9, 10, fun _ _ _ _ => 0⟩ 1 1 (8106479329266893 / 9007199254740992)]) := by
  have h10 : ieee.double 10 = 10 := by decide!
  have h9 : ieee.double 9 = 9 := by decide!
  have hinc : ieee.double (1 / 10) = 3602879701896397 / 36028797018963968 := by decide!
  have hlen : ieee.double ((9 : ℚ) / 10) = 8106479329266893 / 9007199254740992 := by decide!
  have hfin : ieee.isFinite (8106479329266893 / 9007199254740992) = true := by decide!
  have hs : CLAMP 0 0 (8106479329266893 / 9007199254740992 : ℚ) = 0 := by norm_num [CLAMP]
  have hok : stepsOk ieee (3602879701896397 / 36028797018963968) (8106479329266893 / 9007199254740992) 0 nineTimes = true := by decide!
  have hrun := stepsOk_run ieee ⟨1, 1, 9, 10, fun _ _ _ _ => 0⟩ 1 1
    (3602879701896397 / 36028797018963968) (8106479329266893 / 9007199254740992) nineTimes 0 [] 11 hok (by simp [nineTimes])
  unfold renderTrack
  simp only [h10, h9, ieee_double_0, hinc, hlen, hfin, hs]
  rw [if_neg (by norm_num), if_neg (by simp), hrun]
  simp

/-- C8 (as amended). Frame index: for every start time, positive frame rate and source
with positive native frame rate and positive frame count, every frame index
`floor(timestamp * nativeFrameRate)` that a finished run of the loop passes to
`renderSync` satisfies `0 ≤ frameIndex`, and none exceeds the index passed for the final
frame, `floor(length * nativeFrameRate)`.  In the arithmetic of the code, for a whole
frame count up to `2^51`, that makes `0 ≤ frameIndex ≤ totalFrame`.  In exact arithmetic
the loop always finishes, the final index is `floor(totalFrame)` and every frame rendered
at a timestamp below `length` has `frameIndex < totalFrame`. -/
theorem C8_frame_index (A : Arith) (hA : A.Sound) (lottie : Animation) (width height : ℕ)
    (p_options : Options) (hfr : 0 < A.double p_options.frame_rate)
    (hnat : 0 < A.double lottie.frameRate) (htot : 0 < lottie.totalFrame) :
    (∀ fuel frames, renderTrack A lottie width height p_options fuel = some frames →
      (∀ f ∈ frames,
        f.original_frame = ⌊A.double (f.time * A.double lottie.frameRate)⌋ ∧
        0 ≤ f.original_frame ∧
        f.original_frame
          ≤ ⌊A.double (A.double (A.double lottie.totalFrame / A.double lottie.frameRate)
              * A.double lottie.frameRate)⌋) ∧
      ∃ f, frames.getLast? = some f ∧
        f.original_frame
          = ⌊A.double (A.double (A.double lottie.totalFrame / A.double lottie.frameRate)
              * A.double lottie.frameRate)⌋) ∧
    (∀ n : ℕ, lottie.totalFrame = (n : ℚ) → n ≤ 2 ^ 51 →
      0 < ieee.double p_options.frame_rate → 0 < ieee.double lottie.frameRate →
      ieee.double lottie.frameRate < 2 ^ 1024 →
      ∀ fuel frames, renderTrack ieee lottie width height p_options fuel = some frames →
        ∀ f ∈ frames, 0 ≤ f.original_frame ∧ f.original_frame ≤ (n : ℤ)) ∧
    (0 < p_options.frame_rate → 0 < lottie.frameRate →
      ∃ N, ∀ fuel, N ≤ fuel → ∃ frames,
        renderTrack exactArith lottie width height p_options fuel = some frames ∧
        (∀ f ∈ frames, f.original_frame = ⌊f.time * lottie.frameRate⌋ ∧
          0 ≤ f.original_frame ∧ (f.original_frame : ℚ) ≤ lottie.totalFrame ∧
          (f.time < lottie.totalFrame / lottie.frameRate →
            (f.original_frame : ℚ) < lottie.totalFrame)) ∧
        ∃ f, frames.getLast? = some f ∧ f.original_frame = ⌊lottie.totalFrame⌋) := by
  have hlen_of : ∀ B : Arith, B.Sound → 0 < B.double lottie.frameRate →
      0 ≤ B.double (B.double lottie.totalFrame / B.double lottie.frameRate) := by
    intro B hB hn
    have h1 : 0 ≤ B.double lottie.totalFrame := by
      have := hB.double_mono 0 lottie.totalFrame htot.le
      rwa [hB.double_zero] at this
    have := hB.double_mono 0 (B.double lottie.totalFrame / B.double lottie.frameRate)
      (div_nonneg h1 hn.le)
    rwa [hB.double_zero] at this
  refine ⟨?_, ?_, ?_⟩
  · intro fuel frames hrun
    obtain ⟨hall, f, hlast, _, hidx⟩ := finished_indices A hA lottie width height p_options
      hfr hnat (hlen_of A hA hnat) fuel frames hrun
    exact ⟨fun g hg => ⟨(hall g hg).1, (hall g hg).2.2.2.1, (hall g hg).2.2.2.2⟩,
      f, hlast, hidx⟩
  · intro n hn hn51 hfr' hnat' hfin fuel frames hrun f hf
    obtain ⟨hall, _⟩ := finished_indices ieee ieee_sound lottie width height p_options
      hfr' hnat' (hlen_of ieee ieee_sound hnat') fuel frames hrun
    obtain ⟨_, _, _, h0, hle⟩ := hall f hf
    refine ⟨h0, le_trans hle ?_⟩
    rw [hn]
    exact ieee_final_index_le n hn51 _ hnat' hfin
  · intro hfr' hnat'
    have hlen : 0 ≤ lottie.totalFrame / lottie.frameRate := (div_pos htot hnat').le
    refine ⟨stepCount (CLAMP p_options.start_time 0 (lottie.totalFrame / lottie.frameRate))
      (lottie.totalFrame / lottie.frameRate) p_options.frame_rate + 1, fun fuel hfuel => ?_⟩
    have hrun := renderTrack_exact lottie width height p_options hfr' hnat'.ne' fuel hfuel
    obtain ⟨hall, f, hlast, _, hidx⟩ := finished_indices exactArith exactArith_sound lottie
      width height p_options hfr' hnat' hlen fuel _ hrun
    simp only [exactArith_double] at hall hidx
    refine ⟨_, hrun, ?_, f, hlast, ?_⟩
    · intro g hg
      obtain ⟨hi, _, htl, h0, _⟩ := hall g hg
      have hfloor : ((⌊g.time * lottie.frameRate⌋ : ℤ) : ℚ) ≤ g.time * lottie.frameRate :=
        Int.floor_le _
      have hmul : g.time * lottie.frameRate ≤ lottie.totalFrame := by
        rw [← le_div_iff₀ hnat']; exact htl
      refine ⟨hi, h0, ?_, ?_⟩
      · rw [hi]; exact le_trans hfloor hmul
      · intro hlt
        rw [hi]
        have : g.time * lottie.frameRate < lottie.totalFrame := by
          rw [← lt_div_iff₀ hnat']; exact hlt
        exact lt_of_le_of_lt hfloor this
    · rw [hidx, div_mul_cancel₀ _ hnat'.ne']

/-- The frame indices in the arithmetic of the code, on 12 frames at 30 frames a second
sampled from 0 at 10 frames a second. -/
theorem C8_frame_index_witness :
    ∃ frames,
      renderTrack ieee ⟨1, 1, 12, 30, fun _ _ _ _ => 0⟩ 1 1
        ⟨false, 0, 10, ⟨1, 1⟩, true, true, 0⟩ 5 = some frames ∧
      frames.length = 5 ∧
      ∀ f ∈ frames, 0 ≤ f.original_frame ∧ f.original_frame ≤ 12 := by
  have key := (C8_frame_index ieee ieee_sound ⟨1, 1, 12, 30, fun _ _ _ _ => 0⟩ 1 1
    ⟨false, 0, 10, ⟨1, 1⟩, true, true, 0⟩ (by decide!) (by decide!) (by norm_num)).2.1
    12 (by norm_num) (by norm_num) (by decide!) (by decide!) (by decide!) 5 _ tenth_run
  exact ⟨_, tenth_run, by simp, key⟩

/-- C8 as stated fails in the code.  In scenario A (90 frames at 30 frames a second) the
last pass renders the timestamp 3 with frame index 90, which is not below the frame
count.  With 9 frames at 10 frames a second sampled at 10 frames a second the pass at
the timestamp 0.8999999999999999, below the length 0.9, already renders index 9. -/
theorem C8_counterexample :
    (∃ frames,
      renderTrack ieee ⟨1, 1, 90, 30, fun _ _ _ _ => 0⟩ 1 1
        ⟨false, 0, 15, ⟨1, 1⟩, true, true, 0⟩ 46 = some frames ∧
      ∃ f ∈ frames, f.time = 3 ∧ f.original_frame = 90 ∧
        ¬ ((f.original_frame : ℚ) < 90)) ∧
    (∃ frames,
      renderTrack ieee ⟨1, 1, 9, 10, fun _ _ _ _ => 0⟩ 1 1
        ⟨false, 0, 10, ⟨1, 1⟩, true, true, 0⟩ 11 = some frames ∧
      ∃ f ∈ frames, f.time < 8106479329266893 / 9007199254740992 ∧ f.original_frame = 9 ∧
        ¬ ((f.original_frame : ℚ) < 9)) := by
  constructor
  · have h : ⌊ieee.double (3 * ieee.double 30)⌋ = 90 := by decide!
    refine ⟨_, scenarioA_ieee_run 1 1 (fun _ _ _ _ => 0) 1 1 false true true ⟨1, 1⟩ 0 0,
      renderFrame ieee ⟨1, 1, 90, 30, fun _ _ _ _ => 0⟩ 1 1 3, ?_, rfl, ?_, ?_⟩
    · simp
    · rw [renderFrame_original_frame]; exact h
    · rw [renderFrame_original_frame]
      show ¬ ((⌊ieee.double (3 * ieee.double 30)⌋ : ℤ) : ℚ) < 90
      rw [h]; norm_num
  · have h : ⌊ieee.double (2026619832316723 / 2251799813685248 * ieee.double 10)⌋ = 9 := by
      decide!
    refine ⟨_, nine_run,
      renderFrame ieee ⟨1, 1, 9, 10, fun _ _ _ _ => 0⟩ 1 1 (2026619832316723 / 2251799813685248), ?_, ?_, ?_, ?_⟩
    · simp [nineTimes]
    · rw [renderFrame_time]; norm_num
    · rw [renderFrame_original_frame]; exact h
    · rw [renderFrame_original_frame]
      show ¬ ((⌊ieee.double (2026619832316723 / 2251799813685248 * ieee.double 10)⌋ : ℤ) : ℚ) < 9
      rw [h]; norm_num

/-! ## Failure paths -/

/-- The two ways the last stage ends: a static variant whose start frame is not in the
track fails, every other case packs one root node and saves it. -/
theorem buildAndSave_cases (host : Host) (p_save_path : String) (p_options : Options)
    (frames : SpriteFrames) :
    (p_options.animation_import = false ∧ get_frame frames (narrowInt32 p_options.start_frame) = none ∧
      buildAndSave host p_save_path p_options frames = failed) ∨
    ((p_options.animation_import = false →
        ∃ tex, get_frame frames (narrowInt32 p_options.start_frame) = some tex) ∧
      ∃ root, buildAndSave host p_save_path p_options frames
        = packAndSave host p_save_path root) := by
  unfold buildAndSave
  cases h3 : p_options.threeD <;> cases ha : p_options.animation_import <;>
    cases hg : get_frame frames (narrowInt32 p_options.start_frame) <;> simp [hg]

/-- C9. Failure atomicity: when the document does not load, when the native width or
height is zero, when the width or height is zero after scaling, or when a static
variant's start frame (as the `int32_t` the code reads) is not an index of the track,
in either arithmetic the operation returns `FAILED` with
no call of the saver and no path added to the generated files; a result with a save call
or a generated path arises only after every earlier check has passed, from exactly one
save call, whose status is returned unchanged. -/
theorem C9_failure_atomicity (A : Arith) (host : Host) (fuel : ℕ)
    (p_source_file p_save_path : String) (p_options : Options) :
    (host.load p_source_file = none →
      importLottie A host fuel p_source_file p_save_path p_options
        = some ⟨Error.FAILED, [], []⟩) ∧
    (∀ lottie, host.load p_source_file = some lottie →
      (lottie.width = 0 ∨ lottie.height = 0) →
      importLottie A host fuel p_source_file p_save_path p_options
        = some ⟨Error.FAILED, [], []⟩) ∧
    (∀ lottie width height, host.load p_source_file = some lottie →
      lottie.width ≠ 0 → lottie.height ≠ 0 →
      scaleDim A lottie.width p_options.scale.width = some width →
      scaleDim A lottie.height p_options.scale.height = some height →
      (width = 0 ∨ height = 0) →
      importLottie A host fuel p_source_file p_save_path p_options
        = some ⟨Error.FAILED, [], []⟩) ∧
    (∀ lottie width height rendered textures, host.load p_source_file = some lottie →
      lottie.width ≠ 0 → lottie.height ≠ 0 →
      scaleDim A lottie.width p_options.scale.width = some width →
      scaleDim A lottie.height p_options.scale.height = some height →
      width ≠ 0 → height ≠ 0 →
      renderTrack A lottie width height p_options fuel = some rendered →
      collectImages rendered = some textures →
      p_options.animation_import = false →
      get_frame ⟨A.double p_options.frame_rate, textures⟩
        (narrowInt32 p_options.start_frame) = none →
      importLottie A host fuel p_source_file p_save_path p_options
        = some ⟨Error.FAILED, [], []⟩) ∧
    (∀ r, importLottie A host fuel p_source_file p_save_path p_options = some r →
      (r.saved ≠ [] ∨ r.gen_files ≠ []) →
      ∃ lottie width height rendered textures root,
        host.load p_source_file = some lottie ∧ lottie.width ≠ 0 ∧ lottie.height ≠ 0 ∧
        scaleDim A lottie.width p_options.scale.width = some width ∧
        scaleDim A lottie.height p_options.scale.height = some height ∧
        width ≠ 0 ∧ height ≠ 0 ∧
        renderTrack A lottie width height p_options fuel = some rendered ∧
        collectImages rendered = some textures ∧
        (p_options.animation_import = false →
          ∃ tex, get_frame ⟨A.double p_options.frame_rate, textures⟩
            (narrowInt32 p_options.start_frame) = some tex) ∧
        r = ⟨host.save (p_save_path ++ ".scn") root, [p_save_path ++ ".scn"],
          [(p_save_path ++ ".scn", root)]⟩) := by
  refine ⟨?_, ?_, ?_, ?_, ?_⟩
  · intro hload
    simp [importLottie, hload, failed]
  · intro lottie hload hzero
    rcases hzero with h | h
    · simp [importLottie, hload, h, failed]
    · by_cases hw : lottie.width = 0
      · simp [importLottie, hload, hw, failed]
      · simp [importLottie, hload, hw, h, failed]
  · intro lottie width height hload hw hh hsw hsh hzero
    rcases hzero with h | h
    · simp [importLottie, hload, hw, hh, hsw, hsh, h, failed]
    · by_cases hw2 : width = 0
      · simp [importLottie, hload, hw, hh, hsw, hsh, hw2, failed]
      · simp [importLottie, hload, hw, hh, hsw, hsh, hw2, h, failed]
  · intro lottie width height rendered textures hload hw hh hsw hsh hw2 hh2 hrun hcol
      hstatic hmiss
    have hb : buildAndSave host p_save_path p_options ⟨A.double p_options.frame_rate, textures⟩
        = failed := by
      rcases buildAndSave_cases host p_save_path p_options ⟨A.double p_options.frame_rate, textures⟩
        with ⟨_, _, h⟩ | ⟨h, _⟩
      · exact h
      · obtain ⟨tex, htex⟩ := h hstatic
        rw [hmiss] at htex
        exact absurd htex (by simp)
    simp [importLottie, hload, hw, hh, hsw, hsh, hw2, hh2, hrun, hcol, hb, failed]
  · intro r hr hsaved
    have hfailed : r ≠ failed := by
      rintro rfl
      simp [failed] at hsaved
    unfold importLottie at hr
    cases hload : host.load p_source_file with
    | none =>
      rw [hload] at hr
      exact absurd (Option.some.inj hr).symm hfailed
    | some lottie =>
      rw [hload] at hr
      by_cases hw : lottie.width = 0
      · simp only [hw, if_true] at hr
        exact absurd (Option.some.inj hr).symm hfailed
      by_cases hh : lottie.height = 0
      · simp only [hw, hh, if_true, if_false] at hr
        exact absurd (Option.some.inj hr).symm hfailed
      simp only [hw, hh, if_false] at hr
      cases hsw : scaleDim A lottie.width p_options.scale.width with
      | none => rw [hsw] at hr; simp at hr
      | some width =>
        cases hsh : scaleDim A lottie.height p_options.scale.height with
        | none => rw [hsw, hsh] at hr; simp at hr
        | some height =>
          rw [hsw, hsh] at hr
          by_cases hw2 : width = 0
          · simp only [hw2, if_true] at hr
            exact absurd (Option.some.inj hr).symm hfailed
          by_cases hh2 : height = 0
          · simp only [hw2, hh2, if_true, if_false] at hr
            exact absurd (Option.some.inj hr).symm hfailed
          simp only [hw2, hh2, if_false] at hr
          cases hrun : renderTrack A lottie width height p_options fuel with
          | none => rw [hrun] at hr; simp at hr
          | some rendered =>
            cases hcol : collectImages rendered with
            | none => rw [hrun] at hr; dsimp only at hr; rw [hcol] at hr; simp at hr
            | some textures =>
              rw [hrun] at hr
              dsimp only at hr
              rw [hcol] at hr
              have hr2 := (Option.some.inj hr).symm
              rcases buildAndSave_cases host p_save_path p_options
                ⟨A.double p_options.frame_rate, textures⟩ with ⟨_, _, h⟩ | ⟨hstatic, root, h⟩
              · exact absurd (hr2.trans h) hfailed
              · exact ⟨lottie, width, height, rendered, textures, root, rfl, hw, hh, hsw,
                  hsh, hw2, hh2, hrun, hcol, hstatic, hr2.trans h⟩

theorem onePixel_track (p_options : Options) (hs : p_options.start_time = 0)
    (hf : p_options.frame_rate = 1) :
    renderTrack ieee onePixel 1 1 p_options 2
      = some [renderFrame ieee onePixel 1 1 0, renderFrame ieee onePixel 1 1 1] := by
  have h1 : ieee.double 1 = 1 := by decide!
  have hinc : ieee.double ((1 : ℚ) / 1) = 1 := by decide!
  have hfin : ieee.isFinite 1 = true := by decide!
  have hs0 : CLAMP 0 0 (1 : ℚ) = 0 := by norm_num [CLAMP]
  have hok : stepsOk ieee 1 1 0 [] = true := by decide!
  have hrun := stepsOk_run ieee onePixel 1 1 1 1 [] 0 [] 2 hok (by simp)
  unfold renderTrack
  simp only [hs, hf, onePixel, h1, hinc, ieee_double_0, hfin, hs0]
  rw [if_neg (by norm_num), if_neg (by simp)]
  simpa [onePixel] using hrun

theorem onePixel_image (time : ℚ) :
    (renderFrame ieee onePixel 1 1 time).image = some ⟨1, 1, [3, 2, 1, 4]⟩ := by
  have hb : toInt32 (1 * 1 * 4) = 4 := toInt32_of_lt _ (by norm_num)
  have h1 : toInt32 1 = 1 := toInt32_of_lt 1 (by norm_num)
  rw [(renderFrame_image_eq ieee onePixel 1 1 time (by norm_num) (by rw [hb]; decide)).1, h1]
  norm_num [frameBuffer, onePixel, bufferBytes, pixelBytes, swapBR]

theorem onePixel_images :
    collectImages [renderFrame ieee onePixel 1 1 0, renderFrame ieee onePixel 1 1 1]
      = some [⟨1, 1, [3, 2, 1, 4]⟩, ⟨1, 1, [3, 2, 1, 4]⟩] := by
  simp [collectImages, onePixel_image]

theorem scaleDim_one : scaleDim ieee 1 1 = some 1 := by decide!

theorem narrowInt32_small : narrowInt32 5 = 5 ∧ narrowInt32 1 = 1 := by
  constructor <;> decide

/-- In the arithmetic of the code, the static 2D variant with start frame 5 on the
two-frame track of the one-pixel animation fails without a save; with start frame 1 it
saves once and returns the saver's status. -/
theorem C9_failure_atomicity_witness :
    importLottie ieee ⟨fun _ => some onePixel, fun _ _ => Error.other 7⟩ 2 "a.json" "a"
        ⟨false, 0, 1, ⟨1, 1⟩, false, true, 5⟩
      = some ⟨Error.FAILED, [], []⟩ ∧
    importLottie ieee ⟨fun _ => some onePixel, fun _ _ => Error.other 7⟩ 2 "a.json" "a"
        ⟨false, 0, 1, ⟨1, 1⟩, false, true, 1⟩
      = some ⟨Error.other 7, ["a.scn"], [("a.scn", Node.Sprite2D ⟨1, 1, [3, 2, 1, 4]⟩)]⟩ := by
  constructor
  · exact (C9_failure_atomicity ieee ⟨fun _ => some onePixel, fun _ _ => Error.other 7⟩ 2
      "a.json" "a" ⟨false, 0, 1, ⟨1, 1⟩, false, true, 5⟩).2.2.2.1 onePixel 1 1 _ _ rfl
      (by decide) (by decide) scaleDim_one scaleDim_one (by decide) (by decide)
      (onePixel_track _ rfl rfl) onePixel_images rfl
      (by simp [get_frame, narrowInt32_small.1])
  · have h1 : scaleDim ieee onePixel.width 1 = some 1 := scaleDim_one
    have h2 : scaleDim ieee onePixel.height 1 = some 1 := scaleDim_one
    have hw : onePixel.width ≠ 0 := by decide
    have hh : onePixel.height ≠ 0 := by decide
    simp [importLottie, h1, h2, hw, hh, onePixel_track, onePixel_images, buildAndSave,
      get_frame, packAndSave, narrowInt32_small.2]


end Lottie
